import Mathlib

/-!
Verification development for the a11y placeholder generator
(`placeholder-generator/server.py`).

Strings are embedded as `List Char` (Python `str`), character offsets as
`Int` (Python `int`, which may be negative), and positions as zero-based
`{line, column}` records.  Each regex used by the server is embedded as an
explicit scanner over `List Char` with the same leftmost-match semantics,
and `re.finditer` as repeated scanning that restarts after each match.
Recursions that consume a variable number of characters per step take an
explicit fuel argument (always instantiated with the list length, which
is sufficient since every step consumes at least one character); this
keeps every definition structurally recursive and kernel-evaluable.
-/

namespace A11y

/-! ### Character classes (Python `\s`, `\w`, quotes) -/

/-- Python regex `\s` / `str.strip` whitespace, restricted to the ASCII
whitespace characters. -/
def isWs (c : Char) : Bool :=
  c = ' ' || c = '\t' || c = '\n' || c = '\r' || c = '\x0b' || c = '\x0c'

/-- Python regex `\w` (word character): letters, digits, underscore. -/
def isWord (c : Char) : Bool := c.isAlpha || c.isDigit || c = '_'

/-- The double-quote character (written via its code point). -/
def dq : Char := Char.ofNat 34

/-- The single-quote character (written via its code point). -/
def sq : Char := Char.ofNat 39

/-- Python regex class `["\']`. -/
def isQuote (c : Char) : Bool := c = dq || c = sq

/-- Lowercase a string, character by character (Python `str.lower`,
ASCII fragment). -/
def lowerL (l : List Char) : List Char := l.map Char.toLower

/-! ### String primitives: startsWith, find, rfind, contains, strip, split -/

/-- Case-sensitive "the second list starts with the first" test. -/
def startsWithCh : List Char → List Char → Bool
  | [], _ => true
  | _ :: _, [] => false
  | p :: ps, c :: cs => p = c && startsWithCh ps cs

/-- Case-insensitive variant of `startsWithCh` (regex flag `re.I`). -/
def startsWithCI : List Char → List Char → Bool
  | [], _ => true
  | _ :: _, [] => false
  | p :: ps, c :: cs => p.toLower = c.toLower && startsWithCI ps cs

/-- Index of the first occurrence of `pat` in the list
(Python `str.find` returning `Some` instead of `-1`). -/
def findSub (pat : List Char) : List Char → Option Nat
  | [] => if pat.isEmpty then some 0 else none
  | c :: cs =>
    if startsWithCh pat (c :: cs) then some 0
    else (findSub pat cs).map (· + 1)

/-- Index of the last occurrence of `pat` in the list
(Python `str.rfind` returning `Some` instead of `-1`). -/
def rfindSub (pat : List Char) : List Char → Option Nat
  | [] => if pat.isEmpty then some 0 else none
  | c :: cs =>
    match rfindSub pat cs with
    | some n => some (n + 1)
    | none => if startsWithCh pat (c :: cs) then some 0 else none

/-- First index at which `pat` occurs case-insensitively. -/
def findSubCI (pat : List Char) : List Char → Option Nat
  | [] => if pat.isEmpty then some 0 else none
  | c :: cs =>
    if startsWithCI pat (c :: cs) then some 0
    else (findSubCI pat cs).map (· + 1)

/-- Python `pat in s` substring test (case-sensitive). -/
def containsSub (pat : List Char) (s : List Char) : Bool :=
  (findSub pat s).isSome

/-- Python `str.lstrip()` (whitespace variant). -/
def lstrip (l : List Char) : List Char := l.dropWhile isWs

/-- Python `str.rstrip()` (whitespace variant). -/
def rstrip (l : List Char) : List Char := (l.reverse.dropWhile isWs).reverse

/-- Python `str.strip()` (whitespace variant). -/
def pyStrip (l : List Char) : List Char := rstrip (lstrip l)

/-- Python `str.strip(chars)` for a single character argument. -/
def stripChar (ch : Char) (l : List Char) : List Char :=
  ((l.dropWhile (fun c => c = ch)).reverse.dropWhile (fun c => c = ch)).reverse

/-- Python `str.split(sep)` for a one-character separator: `"".split(sep)`
is `[""]`, and consecutive separators produce empty fields. -/
def splitOnCh (sep : Char) : List Char → List (List Char)
  | [] => [[]]
  | c :: rest =>
    if c = sep then [] :: splitOnCh sep rest
    else
      match splitOnCh sep rest with
      | [] => [[c]]
      | l :: ls => (c :: l) :: ls

/-- Python `str.split()` with no argument: split on whitespace runs,
dropping empty fields.  Fueled; `fuel = length` suffices. -/
def pySplitWsF : Nat → List Char → List (List Char)
  | 0, _ => []
  | _ + 1, [] => []
  | fuel + 1, c :: rest =>
    if isWs c then pySplitWsF fuel rest
    else
      let tok := (c :: rest).takeWhile (fun d => !isWs d)
      tok :: pySplitWsF fuel ((c :: rest).drop tok.length)

def pySplitWs (l : List Char) : List (List Char) := pySplitWsF l.length l

/-! ### PositionConverter: `offset_to_pos` (server.py lines 45-57) -/

/-- A zero-based `{line, column}` position. -/
structure Pos where
  line : Nat
  column : Nat
deriving DecidableEq, Repr

/-- The clamping prelude of `offset_to_pos` (lines 47-50): negative
offsets become `0`, offsets past the end become `len(text)`. -/
def clampOff (text : List Char) (offset : Int) : Nat :=
  let off1 : Int := if offset < 0 then 0 else offset
  if (text.length : Int) < off1 then text.length else off1.toNat

/-- `offset_to_pos(text, offset)`: clamp the offset into `[0, len(text)]`,
split the prefix on newlines; the line is `len(lines) - 1` and the column
the length of the last line, exactly as in the source. -/
def offset_to_pos (text : List Char) (offset : Int) : Pos :=
  let pfx := text.take (clampOff text offset)
  let lines := splitOnCh '\n' pfx
  ⟨lines.length - 1, (lines.getLastD []).length⟩

/-- Lexicographic order on positions (`(line, column)`). -/
def posLe (p q : Pos) : Prop :=
  p.line < q.line ∨ (p.line = q.line ∧ p.column ≤ q.column)

instance (p q : Pos) : Decidable (posLe p q) :=
  decidable_of_iff (p.line < q.line ∨ (p.line = q.line ∧ p.column ≤ q.column)) Iff.rfl

/-! ### TextSanitizer: `sanitize_text_for_attr` (server.py lines 59-68) -/

/-- Collapse each maximal run of whitespace to a single space
(`re.sub(r'\s+', ' ', s)`). -/
def collapseWs : List Char → List Char
  | [] => []
  | [c] => [if isWs c then ' ' else c]
  | a :: b :: rest =>
    if isWs a && isWs b then collapseWs (b :: rest)
    else (if isWs a then ' ' else a) :: collapseWs (b :: rest)

/-- Replace every double quote by a single quote
(`s.replace('"', "'")`). -/
def quoteRepl (l : List Char) : List Char :=
  l.map (fun c => if c = dq then sq else c)

/-- The whitespace-collapsed, quote-replaced normal form used inside
`sanitize_text_for_attr` before the length check. -/
def normTxt (l : List Char) : List Char := quoteRepl (collapseWs (pyStrip l))

/-- `sanitize_text_for_attr(s, max_len)`: empty for empty input, otherwise
strip, collapse whitespace, replace double quotes, and truncate with a
`...` marker when longer than `max_len`. -/
def sanitize_text_for_attr (maxLen : Nat) (l : List Char) : List Char :=
  if l.isEmpty then []
  else
    let s := normTxt l
    if maxLen < s.length then rstrip (s.take maxLen) ++ ['.', '.', '.']
    else s

/-- `sanitize_text_for_attr` at its default `max_len = 60`. -/
def sanitize60 (l : List Char) : List Char := sanitize_text_for_attr 60 l

/-! ### Small regex building blocks shared by the rules and guessers -/

/-- Word boundary `\b` at the start of `r`, coming from a word character:
it holds when `r` is exhausted or starts with a non-word character. -/
def boundaryOk (r : List Char) : Bool :=
  match r with
  | [] => true
  | d :: _ => !isWord d

/-- Remove every `<[^>]*>` match (`re.sub(r'<[^>]*>', '', s)`): from each
`<`, if a `>` follows then everything through that first `>` is removed,
else the `<` is kept and scanning resumes at the next character.
Fueled; `fuel = length` suffices. -/
def stripTagsStarF : Nat → List Char → List Char
  | 0, l => l
  | _ + 1, [] => []
  | fuel + 1, '<' :: rest =>
    let inside := rest.takeWhile (fun c => c ≠ '>')
    (match rest.drop inside.length with
     | '>' :: rest2 => stripTagsStarF fuel rest2
     | _ => '<' :: stripTagsStarF fuel rest)
  | fuel + 1, c :: rest => c :: stripTagsStarF fuel rest

def stripTagsStar (l : List Char) : List Char := stripTagsStarF l.length l

/-- Remove every `<[^>]+>` match (`re.sub(r'<[^>]+>', '', s)`): like
`stripTagsStar` but the tag body must be non-empty, so `<>` survives. -/
def stripTagsPlusF : Nat → List Char → List Char
  | 0, l => l
  | _ + 1, [] => []
  | fuel + 1, '<' :: rest =>
    let inside := rest.takeWhile (fun c => c ≠ '>')
    (match inside.length, rest.drop inside.length with
     | _ + 1, '>' :: rest2 => stripTagsPlusF fuel rest2
     | _, _ => '<' :: stripTagsPlusF fuel rest)
  | fuel + 1, c :: rest => c :: stripTagsPlusF fuel rest

def stripTagsPlus (l : List Char) : List Char := stripTagsPlusF l.length l

/-- Try `WORD\s*=\s*["\']` at the head of `s` (the presence patterns like
`\balt\s*=\s*["\']`; the leading `\b` is checked by the caller). -/
def attrPresentAt (w : List Char) (s : List Char) : Bool :=
  startsWithCI w s &&
    (match (s.drop w.length).dropWhile isWs with
     | '=' :: r2 =>
       (match r2.dropWhile isWs with
        | q :: _ => isQuote q
        | [] => false)
     | _ => false)

/-- `re.search(r'\bWORD\s*=\s*["\']', s, re.I)` as a Boolean: scan every
position, tracking whether the previous character was a word character. -/
def hasAttrPresence (w : List Char) : Bool → List Char → Bool
  | _, [] => false
  | bw, c :: rest =>
    (!bw && attrPresentAt w (c :: rest)) || hasAttrPresence w (isWord c) rest

/-- Try `WORD\s*=\s*["\']([^"\']+)["\']` at the head of `s`, returning the
captured value.  The greedy `[^"\']+` run must be non-empty and must be
followed by a quote of either kind, exactly like the regex. -/
def attrCaptureAt (w : List Char) (s : List Char) : Option (List Char) :=
  if startsWithCI w s then
    match (s.drop w.length).dropWhile isWs with
    | '=' :: r2 =>
      (match r2.dropWhile isWs with
       | q :: r3 =>
         if isQuote q then
           let v := r3.takeWhile (fun c => !isQuote c)
           if v.isEmpty then none
           else
             match r3.drop v.length with
             | q2 :: _ => if isQuote q2 then some v else none
             | [] => none
         else none
       | [] => none)
    | _ => none
  else none

/-- `re.search(r'\bWORD\s*=\s*["\']([^"\']+)["\']', s, re.I)`: the first
position where the whole pattern matches yields the captured group. -/
def attrValSearch (w : List Char) : Bool → List Char → Option (List Char)
  | _, [] => none
  | bw, c :: rest =>
    match (if bw then none else attrCaptureAt w (c :: rest)) with
    | some v => some v
    | none => attrValSearch w (isWord c) rest

/-- Try the word token `w` with a trailing `\b` at the head of `s`
(case-sensitive; used on already-lowercased strings). -/
def wordTokenAt (w : List Char) (s : List Char) : Bool :=
  startsWithCh w s && boundaryOk (s.drop w.length)

/-- `re.search(r'\bW\b', s)` for a single token (case-sensitive). -/
def hasWordToken (w : List Char) : Bool → List Char → Bool
  | _, [] => false
  | bw, c :: rest =>
    (!bw && wordTokenAt w (c :: rest)) || hasWordToken w (isWord c) rest

/-- `re.search(r'\b(w1|w2|...)\b', s)`: some alternative matches. -/
def hasAnyWordToken (ws : List (List Char)) (s : List Char) : Bool :=
  ws.any (fun w => hasWordToken w false s)

/-- `re.search(r'<svg\b', s, re.I)`. -/
def hasSvgTag : List Char → Bool
  | [] => false
  | c :: rest =>
    (startsWithCI "<svg".data (c :: rest) && boundaryOk ((c :: rest).drop 4)) ||
      hasSvgTag rest

/-! ### HeuristicGuessers (server.py lines 71-178) -/

/-- Collapse each maximal run of `[_\-\+]` separators to a single space
(`re.sub(r'[_\-\+]+', ' ', name)`). -/
def isSep (c : Char) : Bool := c = '_' || c = '-' || c = '+'

def collapseSeps : List Char → List Char
  | [] => []
  | [c] => [if isSep c then ' ' else c]
  | a :: b :: rest =>
    if isSep a && isSep b then collapseSeps (b :: rest)
    else (if isSep a then ' ' else a) :: collapseSeps (b :: rest)

/-- Match one of the generic tokens `img|image|photo|picture` (in the
regex's alternation order, each with its trailing `\b`) at the head,
returning the number of characters matched. -/
def tokMatchLen (l : List Char) : Option Nat :=
  if startsWithCI "img".data l && boundaryOk (l.drop 3) then some 3
  else if startsWithCI "image".data l && boundaryOk (l.drop 5) then some 5
  else if startsWithCI "photo".data l && boundaryOk (l.drop 5) then some 5
  else if startsWithCI "picture".data l && boundaryOk (l.drop 7) then some 7
  else none

/-- `re.sub(r'\b(img|image|photo|picture)\b', '', name, flags=re.I)`:
delete each generic token that sits between word boundaries.  Fueled;
`fuel = length` suffices. -/
def subGenericWordsF : Nat → Bool → List Char → List Char
  | 0, _, l => l
  | _ + 1, _, [] => []
  | fuel + 1, bw, c :: rest =>
    if bw then c :: subGenericWordsF fuel (isWord c) rest
    else
      match tokMatchLen (c :: rest) with
      | some n => subGenericWordsF fuel true ((c :: rest).drop n)
      | none => c :: subGenericWordsF fuel (isWord c) rest

def subGenericWords (l : List Char) : List Char := subGenericWordsF l.length false l

/-- `os.path.basename` for a POSIX path: the part after the last `/`. -/
def basenameOf (l : List Char) : List Char :=
  (l.reverse.takeWhile (fun c => c ≠ '/')).reverse

/-- The root part of `os.path.splitext`: drop the extension starting at
the last `.`, except that dots at the very beginning do not start an
extension (`.bashrc` keeps its dot). -/
def splitextRoot (l : List Char) : List Char :=
  let k := (l.takeWhile (fun c => c = '.')).length
  match rfindSub ['.'] (l.drop k) with
  | none => l
  | some n => l.take (k + n)

/-- `guess_alt_from_src(src)` (server.py lines 71-89). -/
def guess_alt_from_src (src : List Char) : List Char :=
  if src.isEmpty then "Image".data
  else
    let s1 := (src.takeWhile (fun c => c ≠ '?')).takeWhile (fun c => c ≠ '#')
    if startsWithCh "data:".data s1 then "Image".data
    else
      let filename := basenameOf s1
      let name0 := splitextRoot filename
      let name1 := collapseSeps name0
      let name2 := subGenericWords name1
      let name3 := name2.filter (fun c => !c.isDigit)
      let name4 := pyStrip (sanitize60 name3)
      match name4 with
      | [] => "Image".data
      | c :: rest => c.toUpper :: rest

/-- `guess_button_label_from_attrs(attrs, inner_html)`
(server.py lines 91-115). -/
def guess_button_label_from_attrs (attrs inner : List Char) : List Char :=
  let attrsL := lowerL attrs
  let innerL := lowerL inner
  let visible := pyStrip (stripTagsStar inner)
  if !visible.isEmpty then sanitize60 visible
  else if hasAnyWordToken ["close".data, "dismiss".data, "cancel".data,
      "close-btn".data] attrsL || hasWordToken "close".data false innerL then
    "Close".data
  else if hasAnyWordToken ["submit".data, "send".data, "save".data,
      "confirm".data] attrsL then "Submit".data
  else if hasAnyWordToken ["search".data, "find".data] attrsL then "Search".data
  else if hasAnyWordToken ["menu".data, "open-menu".data, "toggle".data] attrsL then
    "Open menu".data
  else if hasAnyWordToken ["next".data, "prev".data, "previous".data] attrsL then
    "Next".data
  else if hasSvgTag inner || hasWordToken "icon".data false attrsL then
    "Icon button".data
  else "Button".data

/-- Replace `_` and `-` by spaces (`name_val.replace("_", " ").replace("-", " ")`). -/
def sepsToSpaces (l : List Char) : List Char :=
  l.map (fun c => if c = '_' || c = '-' then ' ' else c)

/-- `guess_input_label_from_attrs(tag_name, attrs)` (server.py lines
117-152).  Python raises `IndexError` on `class_val.split()[0]` when the
class value is whitespace-only; that exception is modelled as `none`. -/
def guess_input_label_from_attrs (tagName attrs : List Char) : Option (List Char) :=
  let typeVal := lowerL ((attrValSearch "type".data false attrs).getD [])
  let nameVal := (attrValSearch "name".data false attrs).getD []
  let idVal := (attrValSearch "id".data false attrs).getD []
  let classVal := (attrValSearch "class".data false attrs).getD []
  if containsSub "email".data typeVal || containsSub "email".data nameVal ||
      containsSub "email".data idVal || containsSub "email".data classVal then
    some "Email address".data
  else if containsSub "password".data typeVal || containsSub "password".data nameVal ||
      containsSub "password".data idVal then some "Password".data
  else if containsSub "tel".data typeVal || containsSub "phone".data nameVal then
    some "Phone number".data
  else if containsSub "search".data typeVal || containsSub "search".data nameVal then
    some "Search".data
  else if containsSub "date".data typeVal then some "Date".data
  else if containsSub "number".data typeVal then some "Number".data
  else if !nameVal.isEmpty then some (sanitize60 (sepsToSpaces nameVal))
  else if !idVal.isEmpty then some (sanitize60 (sepsToSpaces idVal))
  else if !classVal.isEmpty then
    match pySplitWs classVal with
    | [] => none
    | tok :: _ => some (sanitize60 (tok.map (fun c => if c = '-' then ' ' else c)))
  else some "Input field".data

/-- Python `str.capitalize()`: first character uppercased, rest lowercased. -/
def pyCapitalize : List Char → List Char
  | [] => []
  | c :: rest => c.toUpper :: rest.map Char.toLower

/-- The length matched by `https?://(www\.)?` at the head of `s`
(applied to an already-lowercased string). -/
def httpMatchLen (s : List Char) : Option Nat :=
  let base : Option Nat :=
    if startsWithCh "https://".data s then some 8
    else if startsWithCh "http://".data s then some 7
    else none
  match base with
  | none => none
  | some b => if startsWithCh "www.".data (s.drop b) then some (b + 4) else some b

/-- `re.sub(r"https?://(www\.)?", "", href_l)`.  Fueled; `fuel = length`
suffices. -/
def removeHttpWwwF : Nat → List Char → List Char
  | 0, l => l
  | _ + 1, [] => []
  | fuel + 1, c :: rest =>
    match httpMatchLen (c :: rest) with
    | some n => removeHttpWwwF fuel ((c :: rest).drop n)
    | none => c :: removeHttpWwwF fuel rest

def removeHttpWww (l : List Char) : List Char := removeHttpWwwF l.length l

/-- `guess_link_label_from_href(href, inner_html)` (server.py lines
154-178).  Note that this branch strips tags with `<[^>]+>` (plus, not
star), unlike the button rule. -/
def guess_link_label_from_href (href inner : List Char) : List Char :=
  if href.isEmpty then
    let visible := pyStrip (stripTagsPlus inner)
    if !visible.isEmpty then sanitize60 visible else "Link".data
  else
    let hrefL := lowerL href
    if containsSub "twitter".data hrefL then "Visit Twitter".data
    else if containsSub "facebook".data hrefL then "Visit Facebook".data
    else if containsSub "linkedin".data hrefL then "Visit Linkedin".data
    else if containsSub "instagram".data hrefL then "Visit Instagram".data
    else if containsSub "youtube".data hrefL then "Visit Youtube".data
    else if containsSub "github".data hrefL then "Visit Github".data
    else if startsWithCh "/".data hrefL then
      let part0 := (stripChar '/' hrefL).takeWhile (fun c => c ≠ '/')
      let part := if part0.isEmpty then "page".data else part0
      "Go to ".data ++ sanitize60 (part.map (fun c => if c = '-' then ' ' else c))
    else
      let h0 := removeHttpWww hrefL
      let h1 := h0.takeWhile (fun c => c ≠ '/')
      let h2 := h1.takeWhile (fun c => c ≠ ':')
      let h3 :=
        if containsSub ".".data h2 then
          let parts := splitOnCh '.' h2
          parts.getD (parts.length - 2) []
        else h2
      let host := sanitize60 h3
      if !host.isEmpty then "Visit ".data ++ pyCapitalize host
      else "Visit link".data

/-! ### Regex matchers (one per pattern used by the rules)

Each matcher attempts its pattern at the head of the given suffix of the
text; the Boolean argument records whether the character just before this
suffix is a word character (for leading `\b`).  On success it returns the
match length and the captured data. -/

/-- Matcher for `<TAG\b([^>]*)\/?>` (also used for `<html\b([^>]*)>`,
which matches the same strings since `/` is in `[^>]`): case-insensitive
`<TAG`, a word boundary, the maximal run of non-`>` characters as the
attribute group, then `>`. -/
def tagVoidAt (tag : List Char) (l : List Char) : Option (Nat × List Char) :=
  if startsWithCI ('<' :: tag) l then
    let k := tag.length + 1
    let r := l.drop k
    if boundaryOk r then
      let attrs := r.takeWhile (fun c => c ≠ '>')
      match r.drop attrs.length with
      | '>' :: _ => some (k + attrs.length + 1, attrs)
      | _ => none
    else none
  else none

/-- Matcher for `<TAG\b([^>]*)>([\s\S]*?)</TAG>`: the non-greedy inner
group runs to the first case-insensitive `</TAG>`.  Returns
`(attrs, inner, innerRel)` where `innerRel` is `m.start(2) - m.start()`. -/
def tagPairAt (tag : List Char) (l : List Char) :
    Option (Nat × (List Char × List Char × Nat)) :=
  if startsWithCI ('<' :: tag) l then
    let k := tag.length + 1
    let r := l.drop k
    if boundaryOk r then
      let attrs := r.takeWhile (fun c => c ≠ '>')
      match r.drop attrs.length with
      | '>' :: rest2 =>
        let closePat := '<' :: '/' :: (tag ++ ['>'])
        (match findSubCI closePat rest2 with
         | some j =>
           let innerRel := k + attrs.length + 1
           some (innerRel + j + closePat.length, (attrs, rest2.take j, innerRel))
         | none => none)
      | _ => none
    else none
  else none

/-- `<img\b([^>]*)\/?>` (rule_image_alt, also searched inside anchors). -/
def m_img (_ : Bool) (l : List Char) : Option (Nat × List Char) :=
  tagVoidAt "img".data l

/-- `<(input|select|textarea)\b([^>]*)\/?>`: the three alternatives are
mutually exclusive, so trying them in order is exact.  Returns the
original-case tag text and the attribute group. -/
def m_inputsel (_ : Bool) (l : List Char) :
    Option (Nat × (List Char × List Char)) :=
  match tagVoidAt "input".data l with
  | some (n, a) => some (n, ((l.drop 1).take 5, a))
  | none =>
    match tagVoidAt "select".data l with
    | some (n, a) => some (n, ((l.drop 1).take 6, a))
    | none =>
      match tagVoidAt "textarea".data l with
      | some (n, a) => some (n, ((l.drop 1).take 8, a))
      | none => none

/-- `<a\b([^>]*)>([\s\S]*?)</a>`. -/
def m_a (_ : Bool) (l : List Char) : Option (Nat × (List Char × List Char × Nat)) :=
  tagPairAt "a".data l

/-- `<button\b([^>]*)>([\s\S]*?)</button>`. -/
def m_button (_ : Bool) (l : List Char) :
    Option (Nat × (List Char × List Char × Nat)) :=
  tagPairAt "button".data l

/-- Does `</h[1-6]>` (case-insensitive) match at the head? -/
def hCloseAt (l : List Char) : Bool :=
  match l with
  | '<' :: '/' :: h :: d :: '>' :: _ => h.toLower = 'h' && ('1' ≤ d && d ≤ '6')
  | _ => false

/-- First index of a `</h[1-6]>` match (the non-greedy inner group of the
heading pattern stops at the first closing heading tag of any level). -/
def findHClose : List Char → Option Nat
  | [] => none
  | c :: rest =>
    if hCloseAt (c :: rest) then some 0 else (findHClose rest).map (· + 1)

/-- `<(h[1-6])\b([^>]*)>([\s\S]*?)</(h[1-6])>`: returns the numeric level
of the opening tag and `m.group(0)` (original case). -/
def m_heading (_ : Bool) (l : List Char) : Option (Nat × (Nat × List Char)) :=
  match l with
  | '<' :: h :: d :: rest =>
    if h.toLower = 'h' && ('1' ≤ d && d ≤ '6') then
      if boundaryOk rest then
        let attrs := rest.takeWhile (fun c => c ≠ '>')
        match rest.drop attrs.length with
        | '>' :: rest2 =>
          (match findHClose rest2 with
           | some j =>
             let n := 3 + attrs.length + 1 + j + 5
             some (n, (d.toNat - 48, l.take n))
           | none => none)
        | _ => none
      else none
    else none
  | _ => none

/-- `\bid\s*=\s*["\']([^"\']+)["\']` (case-insensitive): returns the
captured value. -/
def m_id (bw : Bool) (l : List Char) : Option (Nat × List Char) :=
  if bw then none
  else if startsWithCI "id".data l then
    let ws1 := (l.drop 2).takeWhile isWs
    match (l.drop 2).drop ws1.length with
    | '=' :: r2 =>
      let ws2 := r2.takeWhile isWs
      (match r2.drop ws2.length with
       | q :: r3 =>
         if isQuote q then
           let v := r3.takeWhile (fun c => !isQuote c)
           if v.isEmpty then none
           else
             match r3.drop v.length with
             | q2 :: _ =>
               if isQuote q2 then
                 some (2 + ws1.length + 1 + ws2.length + 1 + v.length + 1, v)
               else none
             | [] => none
         else none
       | [] => none)
    | _ => none
  else none

/-- `\btabindex\s*=\s*["\']([0-9]+)["\']` (case-insensitive): returns the
relative offset of the digit group (`m.start(1) - m.start()`) and the
digits. -/
def m_tabindex (bw : Bool) (l : List Char) : Option (Nat × (Nat × List Char)) :=
  if bw then none
  else if startsWithCI "tabindex".data l then
    let ws1 := (l.drop 8).takeWhile isWs
    match (l.drop 8).drop ws1.length with
    | '=' :: r2 =>
      let ws2 := r2.takeWhile isWs
      (match r2.drop ws2.length with
       | q :: r3 =>
         if isQuote q then
           let ds := r3.takeWhile Char.isDigit
           if ds.isEmpty then none
           else
             match r3.drop ds.length with
             | q2 :: _ =>
               if isQuote q2 then
                 let valRel := 8 + ws1.length + 1 + ws2.length + 1
                 some (valRel + ds.length + 1, (valRel, ds))
               else none
             | [] => none
         else none
       | [] => none)
    | _ => none
  else none

/-- `aria-hidden\s*=\s*["\']true["\']` at the head (case-insensitive). -/
def ariaPatAt (l : List Char) : Bool :=
  startsWithCI "aria-hidden".data l &&
    (match (l.drop 11).dropWhile isWs with
     | '=' :: r2 =>
       (match r2.dropWhile isWs with
        | q :: r3 =>
          isQuote q && startsWithCI "true".data r3 &&
            (match r3.drop 4 with
             | q2 :: _ => isQuote q2
             | [] => false)
        | [] => false)
     | _ => false)

/-- Characters of the class `[a-z0-9\-]` under `re.I`. -/
def isTagNameChar (c : Char) : Bool := c.isAlpha || c.isDigit || c = '-'

/-- `<([a-z0-9\-]+)\b([^>]*)aria-hidden\s*=\s*["\']true["\']([^>]*)>`:
since every character of the pattern after `<` other than the final `>`
lies in `[^>]`, a match at `<` always ends at the first following `>`;
the backtracking over the group-1 split and the first `[^>]*` reduces to
the existential over `k` (a non-empty prefix of the tag-name run ending
at a word boundary) and `j ≥ k` (where the `aria-hidden...` part starts). -/
def m_aria (_ : Bool) (l : List Char) : Option (Nat × Unit) :=
  match l with
  | '<' :: rest =>
    let run := rest.takeWhile isTagNameChar
    if run.isEmpty then none
    else
      let r := rest.takeWhile (fun c => c ≠ '>')
      match rest.drop r.length with
      | '>' :: _ =>
        if (List.range (r.length + 1)).any (fun j =>
             ariaPatAt (r.drop j) &&
               (List.range run.length).any (fun k0 =>
                 let k := k0 + 1
                 decide (k ≤ j) &&
                   ((isWord (run.getD (k - 1) '>')) !=
                     (isWord (if k < r.length then r.getD k '>' else '>'))))) then
          some (1 + r.length + 1, ())
        else none
      | _ => none
  | _ => none

/-- One alternative of the focusable-content scan
`(tabindex\s*=\s*["\']0["\']|href=|<button\b|<a\b|<input\b|<select\b|<textarea\b)`
matching at the head. -/
def focusableAt (l : List Char) : Bool :=
  (startsWithCI "tabindex".data l &&
    (match (l.drop 8).dropWhile isWs with
     | '=' :: r2 =>
       (match r2.dropWhile isWs with
        | q :: '0' :: q2 :: _ => isQuote q && isQuote q2
        | _ => false)
     | _ => false)) ||
  startsWithCI "href=".data l ||
  (startsWithCI "<button".data l && boundaryOk (l.drop 7)) ||
  (startsWithCI "<a".data l && boundaryOk (l.drop 2)) ||
  (startsWithCI "<input".data l && boundaryOk (l.drop 6)) ||
  (startsWithCI "<select".data l && boundaryOk (l.drop 7)) ||
  (startsWithCI "<textarea".data l && boundaryOk (l.drop 9))

/-- `re.search` of the focusable-content alternation over the snippet. -/
def snippetHasFocusable : List Char → Bool
  | [] => false
  | c :: rest => focusableAt (c :: rest) || snippetHasFocusable rest

/-- `re.search(rf'<label\b[^>]*\bfor\s*=\s*["\']ID["\']', code, re.I)`:
the `for=...` part tried at one split point inside the tag. -/
def forPatAt (idv : List Char) (l : List Char) : Bool :=
  startsWithCI "for".data l &&
    (match (l.drop 3).dropWhile isWs with
     | '=' :: r2 =>
       (match r2.dropWhile isWs with
        | q :: r3 =>
          isQuote q && startsWithCI idv r3 &&
            (match r3.drop idv.length with
             | q2 :: _ => isQuote q2
             | [] => false)
        | [] => false)
     | _ => false)

/-- The `<label\b[^>]*\bfor\s*=\s*["\']ID["\']` pattern matching at the
head: the `[^>]*` part can stop at any `j` within the non-`>` run, and
`\bfor` needs a non-word character just before (at `j = 0` the previous
character is the `l` of `label`, a word character, so it never matches). -/
def labelForAt (idv : List Char) (l : List Char) : Bool :=
  startsWithCI "<label".data l && boundaryOk (l.drop 6) &&
    (let r := (l.drop 6).takeWhile (fun c => c ≠ '>')
     (List.range (r.length + 1)).any (fun j =>
        (if j = 0 then false else !isWord (r.getD (j - 1) 'l')) &&
          forPatAt idv (l.drop (6 + j))))

def hasLabelForGo (idv : List Char) : List Char → Bool
  | [] => false
  | c :: rest => labelForAt idv (c :: rest) || hasLabelForGo idv rest

/-- Is there a `<label ... for="idv">` anywhere in the document? -/
def hasLabelFor (code idv : List Char) : Bool := hasLabelForGo idv code

/-! ### `re.finditer` / `re.search` as repeated scanning -/

/-- Run the matcher at every position, restarting after each match
(`re.finditer`).  Each result is `(start, length, captures)`.  The Boolean
threads "previous character is a word character" for leading `\b` checks;
an empty match advances by one, as `finditer` does.  Fueled;
`fuel = length` suffices since every step consumes at least one character. -/
def scanAllF {α : Type} (m : Bool → List Char → Option (Nat × α)) :
    Nat → Bool → Nat → List Char → List (Nat × Nat × α)
  | 0, _, _, _ => []
  | _ + 1, _, _, [] => []
  | fuel + 1, bw, i, c :: rest =>
    match m bw (c :: rest) with
    | none => scanAllF m fuel (isWord c) (i + 1) rest
    | some (n, a) =>
      let step := if n = 0 then 1 else n
      (i, n, a) :: scanAllF m fuel (isWord ((c :: rest).getD (step - 1) c)) (i + step)
        ((c :: rest).drop step)

def scanAll {α : Type} (m : Bool → List Char → Option (Nat × α)) (l : List Char) :
    List (Nat × Nat × α) := scanAllF m l.length false 0 l

/-- `re.search`: the leftmost match only. -/
def searchFirst {α : Type} (m : Bool → List Char → Option (Nat × α)) (l : List Char) :
    Option (Nat × Nat × α) := (scanAll m l).head?

/-! ### Data model: positions, edits -/

/-- An edit before position conversion: the two character offsets and the
replacement text, exactly as computed inside each rule. -/
structure OffEdit where
  o1 : Int
  o2 : Int
  newText : List Char
deriving DecidableEq, Repr

/-- An `Edit {start, end, newText}` as returned to the client (`stop`
embeds the Python key `end`, a Lean keyword). -/
structure Edit where
  start : Pos
  stop : Pos
  newText : List Char
deriving DecidableEq, Repr

/-- Convert a rule's offset pair through `offset_to_pos`. -/
def mkEdit (code : List Char) (e : OffEdit) : Edit :=
  ⟨offset_to_pos code e.o1, offset_to_pos code e.o2, e.newText⟩

/-! ### RuleEngine (server.py lines 208-409) -/

def imgMatches (code : List Char) : List (Nat × Nat × List Char) :=
  scanAll m_img code

/-- `rule_image_alt` (lines 208-232): for `<img>` without `alt`, insert
an alt attribute before the closing bracket; the caption collaborator is
consulted only in `"ml"` mode for `data:` sources. -/
def rule_image_alt (code mode : List Char) (mlAvailable : Bool)
    (caption : List Char → List Char) : List OffEdit :=
  (imgMatches code).filterMap (fun m =>
    let s := m.1
    let attrs := m.2.2
    if hasAttrPresence "alt".data false attrs then none
    else
      let srcVal := (attrValSearch "src".data false attrs).getD []
      let altText :=
        if (mode == "ml".data) && mlAvailable && startsWithCh "data:".data srcVal then
          caption srcVal
        else guess_alt_from_src srcVal
      let alt2 := sanitize60 altText
      let g0 := (code.drop s).take m.2.1
      let ip : Int := (s : Int) +
        (match rfindSub ['>'] g0 with
         | some r => (r : Int)
         | none => (g0.length : Int))
      some ⟨ip, ip, " alt=\"".data ++ alt2 ++ "\"".data⟩)

def inputMatches (code : List Char) : List (Nat × Nat × (List Char × List Char)) :=
  scanAll m_inputsel code

/-- The loop body of `rule_input_label` (lines 254-275).  Python's
`IndexError` from the guesser aborts the whole request, modelled by
`none`. -/
def ruleInputGo (code : List Char) :
    List (Nat × Nat × (List Char × List Char)) → Option (List OffEdit)
  | [] => some []
  | m :: ms =>
    let s := m.1
    let n := m.2.1
    let tag := m.2.2.1
    let attrs := m.2.2.2
    let skip :=
      hasAttrPresence "aria-label".data false attrs ||
      hasAttrPresence "aria-labelledby".data false attrs ||
      (match attrValSearch "id".data false attrs with
       | some idv => hasLabelFor code idv
       | none => false)
    if skip then ruleInputGo code ms
    else
      match guess_input_label_from_attrs (lowerL tag) attrs with
      | none => none
      | some label =>
        match ruleInputGo code ms with
        | none => none
        | some es =>
          let g0 := (code.drop s).take n
          let ip : Int := (s : Int) +
            (match rfindSub ['>'] g0 with
             | some r => (r : Int)
             | none => (g0.length : Int))
          some (⟨ip, ip, " aria-label=\"".data ++ label ++ "\"".data⟩ :: es)

def rule_input_label (code : List Char) : Option (List OffEdit) :=
  ruleInputGo code (inputMatches code)

def aMatches (code : List Char) : List (Nat × Nat × (List Char × List Char × Nat)) :=
  scanAll m_a code

/-- `rule_link_name` (lines 277-318): for anchors with no aria-label and
no visible text, either fix an unlabeled inner image or label the anchor. -/
def rule_link_name (code : List Char) : List OffEdit :=
  (aMatches code).filterMap (fun m =>
    let s : Nat := m.1
    let n : Nat := m.2.1
    let attrs := m.2.2.1
    let inner := m.2.2.2.1
    let innerRel := m.2.2.2.2
    if hasAttrPresence "aria-label".data false attrs then none
    else if !(pyStrip (stripTagsStar inner)).isEmpty then none
    else
      let imgEdit : Option OffEdit :=
        match searchFirst m_img inner with
        | some im =>
          let imgAttrs := im.2.2
          if hasAttrPresence "alt".data false imgAttrs then none
          else
            let img0 := (inner.drop im.1).take im.2.1
            let fj : Int :=
              match findSub img0 inner with
              | some k => (k : Int)
              | none => -1
            let ip : Int := (s : Int) + (innerRel : Int) + fj +
              (match rfindSub ['>'] img0 with
               | some r => (r : Int)
               | none => (img0.length : Int))
            let srcVal := (attrValSearch "src".data false imgAttrs).getD []
            some ⟨ip, ip, " alt=\"".data ++ guess_alt_from_src srcVal ++ "\"".data⟩
        | none => none
      match imgEdit with
      | some e => some e
      | none =>
        let hrefVal := (attrValSearch "href".data false attrs).getD []
        let label := guess_link_label_from_href hrefVal inner
        let g0 := (code.drop s).take n
        let ot : Int := (s : Int) +
          (match findSub ['>'] g0 with
           | some f => (f : Int)
           | none => 0)
        some ⟨ot, ot, " aria-label=\"".data ++ label ++ "\"".data⟩)

def buttonMatches (code : List Char) :
    List (Nat × Nat × (List Char × List Char × Nat)) :=
  scanAll m_button code

/-- `rule_button_name` (lines 234-252). -/
def rule_button_name (code : List Char) : List OffEdit :=
  (buttonMatches code).filterMap (fun m =>
    let s := m.1
    let n := m.2.1
    let attrs := m.2.2.1
    let inner := m.2.2.2.1
    if hasAttrPresence "aria-label".data false attrs ||
        hasAttrPresence "aria-labelledby".data false attrs ||
        hasAttrPresence "title".data false attrs then none
    else if !(pyStrip (stripTagsStar inner)).isEmpty then none
    else
      let label := guess_button_label_from_attrs attrs inner
      let g0 := (code.drop s).take n
      let ip : Int := (s : Int) +
        (match findSub ['>'] g0 with
         | some f => (f : Int)
         | none => 0)
      some ⟨ip, ip, " aria-label=\"".data ++ label ++ "\"".data⟩)

def idMatches (code : List Char) : List (Nat × Nat × List Char) :=
  scanAll m_id code

/-- The occurrence list of `rule_duplicate_id` (lines 322-329): the value
and the "approximate" absolute index
`m.start() + match_str.lower().find(idval.lower())`. -/
def idOccurrences (code : List Char) : List (List Char × Int) :=
  (idMatches code).map (fun m =>
    let ms := (code.drop m.1).take m.2.1
    (m.2.2, (m.1 : Int) +
      (match findSub (lowerL m.2.2) (lowerL ms) with
       | some k => (k : Int)
       | none => -1)))

/-- `groups.setdefault(idval, []).append(idx)` over an insertion-ordered
dict (Python 3.7+ semantics). -/
def upsertGroup (g : List (List Char × List Int)) (v : List Char) (i : Int) :
    List (List Char × List Int) :=
  match g with
  | [] => [(v, [i])]
  | (w, arr) :: rest =>
    if w = v then (w, arr ++ [i]) :: rest
    else (w, arr) :: upsertGroup rest v i

def idGroups (code : List Char) : List (List Char × List Int) :=
  (idOccurrences code).foldl (fun g p => upsertGroup g p.1 p.2) []

/-- The edits one group contributes (lines 333-344): skip the first
occurrence, rename occurrence `i` to `value-i`. -/
def dupEditsFor (v : List Char) (arr : List Int) : List OffEdit :=
  if arr.length ≤ 1 then []
  else
    arr.enum.filterMap (fun p =>
      if p.1 = 0 then none
      else some ⟨p.2, p.2 + (v.length : Int), v ++ ['-'] ++ (Nat.repr p.1).data⟩)

def rule_duplicate_id (code : List Char) : List OffEdit :=
  (idGroups code).bind (fun g => dupEditsFor g.1 g.2)

def headingMatches (code : List Char) : List (Nat × Nat × (Nat × List Char)) :=
  scanAll m_heading code

/-- The walk of `rule_heading_order` (lines 346-374): note that
`last = level` stores the heading's original level, corrected or not. -/
def headingWalk : Option Nat → List (Nat × Nat × (Nat × List Char)) →
    List OffEdit × List (List Char)
  | _, [] => ([], [])
  | last, m :: ms =>
    let s := m.1
    let level := m.2.2.1
    let block := m.2.2.2
    let rest := headingWalk (some level) ms
    match last with
    | none => rest
    | some lv =>
      if lv + 1 < level then
        let target := lv + 1
        let hl := 'h' :: (Nat.repr level).data
        let openRel : Int :=
          match findSub hl block with
          | some k => (k : Int)
          | none => -1
        let openAbs := (s : Int) + openRel
        let closeRel : Int :=
          match rfindSub ('<' :: '/' :: (hl ++ ['>'])) block with
          | some k => (k : Int)
          | none => -1
        let closeAbs := (s : Int) + closeRel + 2
        let warn := "Changed heading level h".data ++ (Nat.repr level).data ++
          " -> h".data ++ (Nat.repr target).data ++ " at offset ".data ++
          (Nat.repr s).data ++ " to fix order.".data
        (⟨openAbs, openAbs + (hl.length : Int), 'h' :: (Nat.repr target).data⟩ ::
          ⟨closeAbs, closeAbs + (hl.length : Int), 'h' :: (Nat.repr target).data⟩ ::
          rest.1,
         warn :: rest.2)
      else rest

def rule_heading_order (code : List Char) : List OffEdit × List (List Char) :=
  headingWalk none (headingMatches code)

/-- `int(...)` on a `[0-9]+` capture (never fails). -/
def natOfDigits (ds : List Char) : Nat :=
  ds.foldl (fun a c => a * 10 + (c.toNat - 48)) 0

/-- `rule_no_positive_tabindex` (lines 376-390). -/
def rule_no_positive_tabindex (code : List Char) : List OffEdit :=
  (scanAll m_tabindex code).filterMap (fun m =>
    let valRel := m.2.2.1
    let ds := m.2.2.2
    if 0 < natOfDigits ds then
      let vs : Int := (m.1 : Int) + (valRel : Int)
      some ⟨vs, vs + (ds.length : Int), ['0']⟩
    else none)

/-- `rule_html_lang` (lines 392-403). -/
def rule_html_lang (code : List Char) : List OffEdit :=
  match searchFirst (fun _ l => tagVoidAt "html".data l) code with
  | some m =>
    if hasAttrPresence "lang".data false m.2.2 then []
    else
      let g0 := (code.drop m.1).take m.2.1
      let ip : Int := (m.1 : Int) +
        (match rfindSub ['>'] g0 with
         | some r => (r : Int)
         | none => -1)
      [⟨ip, ip, " lang=\"en\"".data⟩]
  | none => []

def ariaWarnMsg : List Char :=
  "aria-hidden element contains focusable children; consider removing aria-hidden or making content non-focusable.".data

/-- The advisory aria-hidden scan in `generate` (lines 437-442): for each
match, inspect the 400-character window after the tag. -/
def ariaWarnings (code : List Char) : List (List Char) :=
  (scanAll m_aria code).filterMap (fun m =>
    if snippetHasFocusable ((code.drop (m.1 + m.2.1)).take 400) then some ariaWarnMsg
    else none)

/-! ### EditCollector and Orchestrator (server.py lines 412-457) -/

/-- The dedup loop (lines 445-452): the key is the whole
`(start, end, newText)` record. -/
def dedupGo (seen : List Edit) : List Edit → List Edit
  | [] => []
  | e :: rest =>
    if e ∈ seen then dedupGo seen rest else e :: dedupGo (e :: seen) rest

/-- The sort key `(start.line, start.column)`. -/
def sortKey (e : Edit) : Nat × Nat := (e.start.line, e.start.column)

/-- Strict lexicographic comparison of sort keys. -/
def keyLt (a b : Edit) : Prop :=
  a.start.line < b.start.line ∨
    (a.start.line = b.start.line ∧ a.start.column < b.start.column)

instance (a b : Edit) : Decidable (keyLt a b) :=
  decidable_of_iff (a.start.line < b.start.line ∨
    (a.start.line = b.start.line ∧ a.start.column < b.start.column)) Iff.rfl

/-- Stable descending insertion: a new element goes after every earlier
element whose key is not smaller, exactly the placement produced by a
stable sort with `reverse=True` (Python's `list.sort`). -/
def insDesc (e : Edit) : List Edit → List Edit
  | [] => [e]
  | x :: xs => if keyLt x e then e :: x :: xs else x :: insDesc e xs

def sortDesc (l : List Edit) : List Edit :=
  l.foldl (fun acc e => insDesc e acc) []

/-- Lines 444-455: deduplicate keeping the first occurrence, then stable
sort in descending `(start.line, start.column)` order. -/
def collectEdits (l : List Edit) : List Edit := sortDesc (dedupGo [] l)

def MAX_CHARS : Nat := 600000

structure GenResult where
  edits : List Edit
  warnings : List (List Char)
deriving DecidableEq, Repr

/-- All rule edits, in rule order, before position conversion (`none`
models the uncaught `IndexError` escaping `rule_input_label`, which
aborts the request before any edit is returned). -/
def rawOffEdits (code mode : List Char) (mlAvailable : Bool)
    (caption : List Char → List Char) : Option (List OffEdit) :=
  match rule_input_label code with
  | none => none
  | some inputEs =>
    some (rule_image_alt code mode mlAvailable caption ++ inputEs ++
      rule_link_name code ++ rule_button_name code ++ rule_duplicate_id code ++
      (rule_heading_order code).1 ++ rule_no_positive_tabindex code ++
      rule_html_lang code)

/-- The size cap applied by `generate` before running the rules. -/
def truncCode (code0 : List Char) : List Char :=
  if MAX_CHARS < code0.length then code0.take MAX_CHARS else code0

/-- The accumulated edit list of a request, after position conversion but
before the dedup/sort pass (`none` models the uncaught exception). -/
def rawEditsOf (code0 mode0 : List Char) (mlAvailable : Bool)
    (caption : List Char → List Char) : Option (List Edit) :=
  (rawOffEdits (truncCode code0) (lowerL mode0) mlAvailable caption).map
    (fun offs => offs.map (mkEdit (truncCode code0)))

/-- The `/generate` endpoint body (lines 412-457): lowercase the mode,
cap the input size (with a warning), run the rules, collect warnings in
emission order (truncation, then heading, then aria-hidden), and dedup +
sort the edits. -/
def generate (code0 mode0 : List Char) (mlAvailable : Bool)
    (caption : List Char → List Char) : Option GenResult :=
  let code := truncCode code0
  let warn0 : List (List Char) :=
    if MAX_CHARS < code0.length then ["Input truncated due to size.".data] else []
  match rawEditsOf code0 mode0 mlAvailable caption with
  | none => none
  | some edits0 =>
    some ⟨collectEdits edits0,
      warn0 ++ (rule_heading_order code).2 ++ ariaWarnings code⟩

/-! ### Lemmas about the collector (dedup + stable descending sort) -/

theorem dedupGo_sublist (seen l : List Edit) : (dedupGo seen l).Sublist l := by
  induction l generalizing seen with
  | nil => simp [dedupGo]
  | cons e rest ih =>
    unfold dedupGo
    by_cases he : e ∈ seen
    · rw [if_pos he]; exact (ih seen).cons e
    · rw [if_neg he]; exact (ih (e :: seen)).cons₂ e

theorem mem_dedupGo (seen l : List Edit) (e : Edit) (hl : e ∈ l) (hs : e ∉ seen) :
    e ∈ dedupGo seen l := by
  induction l generalizing seen with
  | nil => cases hl
  | cons a rest ih =>
    unfold dedupGo
    by_cases ha : a ∈ seen
    · rw [if_pos ha]
      rcases List.mem_cons.mp hl with rfl | hl2
      · exact absurd ha hs
      · exact ih seen hl2 hs
    · rw [if_neg ha]
      rcases List.mem_cons.mp hl with rfl | hl2
      · exact List.mem_cons_self _ _
      · by_cases hea : e = a
        · subst hea; exact List.mem_cons_self _ _
        · exact List.mem_cons_of_mem _
            (ih (a :: seen) hl2 (by simp [List.mem_cons, hea, hs]))

theorem dedupGo_not_mem_seen (seen l : List Edit) (x : Edit)
    (hx : x ∈ dedupGo seen l) : x ∉ seen := by
  induction l generalizing seen with
  | nil => simp [dedupGo] at hx
  | cons e rest ih =>
    unfold dedupGo at hx
    by_cases he : e ∈ seen
    · rw [if_pos he] at hx; exact ih seen hx
    · rw [if_neg he] at hx
      rcases List.mem_cons.mp hx with rfl | hx2
      · exact he
      · intro hs
        exact ih (e :: seen) hx2 (List.mem_cons_of_mem e hs)

theorem dedupGo_nodup (seen l : List Edit) : (dedupGo seen l).Nodup := by
  induction l generalizing seen with
  | nil => simp [dedupGo]
  | cons e rest ih =>
    unfold dedupGo
    by_cases he : e ∈ seen
    · rw [if_pos he]; exact ih seen
    · rw [if_neg he]
      refine List.nodup_cons.mpr ⟨?_, ih (e :: seen)⟩
      intro hmem
      exact dedupGo_not_mem_seen _ _ _ hmem (List.mem_cons_self e seen)

theorem keyLt_asymm {a b : Edit} (h : keyLt a b) : ¬ keyLt b a := by
  unfold keyLt at *; omega

theorem keyLt_trans {a b c : Edit} (h1 : keyLt a b) (h2 : keyLt b c) : keyLt a c := by
  unfold keyLt at *; omega

theorem keyLt_of_keyLt_of_not {x e y : Edit} (h1 : keyLt x e) (h2 : ¬ keyLt x y) :
    keyLt y e := by
  unfold keyLt at *; omega

theorem sortKey_ne_of_keyLt {a b : Edit} (h : keyLt a b) : sortKey a ≠ sortKey b := by
  unfold keyLt at h; unfold sortKey
  intro hEq
  have h1 : a.start.line = b.start.line := congrArg Prod.fst hEq
  have h2 : a.start.column = b.start.column := congrArg Prod.snd hEq
  omega

theorem mem_insDesc {e x : Edit} {l : List Edit} (h : x ∈ insDesc e l) :
    x = e ∨ x ∈ l := by
  induction l with
  | nil => simpa [insDesc] using h
  | cons a as ih =>
    unfold insDesc at h
    by_cases hk : keyLt a e
    · rw [if_pos hk] at h
      rcases List.mem_cons.mp h with rfl | h2
      · exact Or.inl rfl
      · exact Or.inr h2
    · rw [if_neg hk] at h
      rcases List.mem_cons.mp h with rfl | h2
      · exact Or.inr (List.mem_cons_self _ _)
      · rcases ih h2 with h3 | h3
        · exact Or.inl h3
        · exact Or.inr (List.mem_cons_of_mem _ h3)

theorem insDesc_perm (e : Edit) (l : List Edit) : (insDesc e l).Perm (e :: l) := by
  induction l with
  | nil => simp [insDesc]
  | cons a as ih =>
    unfold insDesc
    by_cases hk : keyLt a e
    · rw [if_pos hk]
    · rw [if_neg hk]
      exact (ih.cons a).trans (List.Perm.swap e a as)

/-- Descending sortedness: no element is key-less than a later one. -/
def sortedDesc (l : List Edit) : Prop := l.Pairwise (fun a b => ¬ keyLt a b)

theorem insDesc_sorted {e : Edit} {l : List Edit} (h : sortedDesc l) :
    sortedDesc (insDesc e l) := by
  induction l with
  | nil => simp [insDesc, sortedDesc]
  | cons a as ih =>
    have h1 := List.pairwise_cons.mp h
    unfold insDesc
    by_cases hk : keyLt a e
    · rw [if_pos hk]
      refine List.pairwise_cons.mpr ⟨?_, h⟩
      intro y hy
      rcases List.mem_cons.mp hy with rfl | hy2
      · exact keyLt_asymm hk
      · intro hey
        exact absurd (keyLt_of_keyLt_of_not hk (h1.1 y hy2)) (keyLt_asymm hey)
    · rw [if_neg hk]
      refine List.pairwise_cons.mpr ⟨?_, ih h1.2⟩
      intro y hy
      rcases mem_insDesc hy with rfl | hy2
      · exact hk
      · exact h1.1 y hy2

theorem insDesc_filter {e : Edit} {l : List Edit} (k : Nat × Nat) (h : sortedDesc l) :
    (insDesc e l).filter (fun x => decide (sortKey x = k)) =
      if sortKey e = k then
        l.filter (fun x => decide (sortKey x = k)) ++ [e]
      else l.filter (fun x => decide (sortKey x = k)) := by
  induction l with
  | nil =>
    by_cases hek : sortKey e = k <;> simp [insDesc, List.filter, hek]
  | cons a as ih =>
    have h1 := List.pairwise_cons.mp h
    unfold insDesc
    by_cases hk : keyLt a e
    · rw [if_pos hk]
      by_cases hek : sortKey e = k
      · rw [if_pos hek]
        have hnil : (a :: as).filter (fun x => decide (sortKey x = k)) = [] := by
          rw [List.filter_eq_nil]
          intro x hx
          have hxe : keyLt x e := by
            rcases List.mem_cons.mp hx with rfl | hx2
            · exact hk
            · exact keyLt_of_keyLt_of_not hk (h1.1 x hx2)
          have := sortKey_ne_of_keyLt hxe
          simp [hek ▸ this]
        rw [hnil]
        simp only [List.nil_append]
        rw [List.filter_cons_of_pos (by simp [hek])]
        rw [List.filter_eq_nil.mpr (fun x hx => (List.filter_eq_nil.mp hnil) x hx)]
      · rw [if_neg hek]
        rw [List.filter_cons_of_neg (by simp [hek])]
    · rw [if_neg hk]
      by_cases hak : sortKey a = k
      · rw [List.filter_cons_of_pos (by simp [hak]),
          List.filter_cons_of_pos (by simp [hak]), ih h1.2]
        by_cases hek : sortKey e = k
        · rw [if_pos hek, if_pos hek, List.cons_append]
        · rw [if_neg hek, if_neg hek]
      · rw [List.filter_cons_of_neg (by simp [hak]),
          List.filter_cons_of_neg (by simp [hak]), ih h1.2]

theorem sortFold_perm (l acc : List Edit) :
    (l.foldl (fun acc e => insDesc e acc) acc).Perm (acc ++ l) := by
  induction l generalizing acc with
  | nil => simp
  | cons e rest ih =>
    simp only [List.foldl_cons]
    refine (ih (insDesc e acc)).trans ?_
    refine (((insDesc_perm e acc).append_right rest).trans ?_)
    exact List.perm_middle.symm

theorem sortFold_sorted (l : List Edit) (acc : List Edit) (h : sortedDesc acc) :
    sortedDesc (l.foldl (fun acc e => insDesc e acc) acc) := by
  induction l generalizing acc with
  | nil => exact h
  | cons e rest ih =>
    simp only [List.foldl_cons]
    exact ih _ (insDesc_sorted h)

theorem sortFold_filter (l : List Edit) (acc : List Edit) (k : Nat × Nat)
    (h : sortedDesc acc) :
    (l.foldl (fun acc e => insDesc e acc) acc).filter
        (fun x => decide (sortKey x = k)) =
      acc.filter (fun x => decide (sortKey x = k)) ++
        l.filter (fun x => decide (sortKey x = k)) := by
  induction l generalizing acc with
  | nil => simp
  | cons e rest ih =>
    simp only [List.foldl_cons]
    rw [ih _ (insDesc_sorted h), insDesc_filter k h]
    by_cases hek : sortKey e = k
    · rw [if_pos hek, List.filter_cons_of_pos (by simp [hek])]
      simp
    · rw [if_neg hek, List.filter_cons_of_neg (by simp [hek])]

theorem sortDesc_perm (l : List Edit) : (sortDesc l).Perm l := by
  simpa using sortFold_perm l []

theorem sortDesc_sorted (l : List Edit) : sortedDesc (sortDesc l) :=
  sortFold_sorted l [] (by simp [sortedDesc])

theorem sortDesc_filter (l : List Edit) (k : Nat × Nat) :
    (sortDesc l).filter (fun x => decide (sortKey x = k)) =
      l.filter (fun x => decide (sortKey x = k)) := by
  simpa using sortFold_filter l [] k (by simp [sortedDesc])

/-! ### Mode independence of the image rule -/

theorem rule_image_alt_mode_indep (code mode : List Char)
    (h : (mode == "ml".data) = false) (ml1 ml2 : Bool)
    (cap1 cap2 : List Char → List Char) :
    rule_image_alt code mode ml1 cap1 = rule_image_alt code mode ml2 cap2 := by
  unfold rule_image_alt
  simp [h]

/-! ### Lemmas about `splitOnCh` and `offset_to_pos` -/

theorem splitOnCh_ne_nil (sep : Char) (l : List Char) : splitOnCh sep l ≠ [] := by
  cases l with
  | nil => simp [splitOnCh]
  | cons c rest =>
    unfold splitOnCh
    by_cases h : c = sep
    · simp [h]
    · rw [if_neg h]
      cases hs : splitOnCh sep rest <;> simp

theorem splitOnCh_length (sep : Char) (l : List Char) :
    (splitOnCh sep l).length = l.count sep + 1 := by
  induction l with
  | nil => simp [splitOnCh]
  | cons c rest ih =>
    unfold splitOnCh
    by_cases h : c = sep
    · rw [if_pos h]
      simp [List.count_cons, h, ih]
    · rw [if_neg h]
      cases hs : splitOnCh sep rest with
      | nil => exact absurd hs (splitOnCh_ne_nil sep rest)
      | cons m ms =>
        have h2 := ih
        rw [hs] at h2
        simp only [List.length_cons] at h2 ⊢
        have hcc : (c == sep) = false := by simp [h]
        simp [List.count_cons, hcc]
        omega

theorem getLastD_irrel {α : Type} (l : List α) (h : l ≠ []) (d1 d2 : α) :
    l.getLastD d1 = l.getLastD d2 := by
  cases l with
  | nil => exact absurd rfl h
  | cons a as => rw [List.getLastD_cons, List.getLastD_cons]

theorem splitOnCh_append_sep (sep : Char) (l : List Char) :
    splitOnCh sep (l ++ [sep]) = splitOnCh sep l ++ [[]] := by
  induction l with
  | nil => simp [splitOnCh]
  | cons c rest ih =>
    simp only [List.cons_append]
    unfold splitOnCh
    by_cases h : c = sep
    · rw [if_pos h, if_pos h, ih]
      rfl
    · rw [if_neg h, if_neg h, ih]
      cases hs : splitOnCh sep rest with
      | nil => exact absurd hs (splitOnCh_ne_nil sep rest)
      | cons m ms => rfl

theorem getLastD_splitOnCh_append_nonsep (sep c : Char) (hc : ¬ c = sep)
    (l : List Char) :
    (splitOnCh sep (l ++ [c])).getLastD [] =
      (splitOnCh sep l).getLastD [] ++ [c] := by
  induction l with
  | nil =>
    simp [splitOnCh, hc]
  | cons a rest ih =>
    simp only [List.cons_append]
    unfold splitOnCh
    by_cases h : a = sep
    · rw [if_pos h, if_pos h]
      simpa only [List.getLastD_cons] using ih
    · rw [if_neg h, if_neg h]
      cases hs1 : splitOnCh sep (rest ++ [c]) with
      | nil => exact absurd hs1 (splitOnCh_ne_nil sep (rest ++ [c]))
      | cons m ms =>
        cases hs2 : splitOnCh sep rest with
        | nil => exact absurd hs2 (splitOnCh_ne_nil sep rest)
        | cons y ys =>
          have hlen : ms.length = ys.length := by
            have l1 := splitOnCh_length sep (rest ++ [c])
            have l2 := splitOnCh_length sep rest
            rw [hs1] at l1
            rw [hs2] at l2
            have hcnt : List.count sep (rest ++ [c]) = List.count sep rest := by
              simp [List.count_append, List.count_cons, hc]
            simp only [List.length_cons] at l1 l2
            omega
          rw [hs1, hs2] at ih
          cases ms with
          | nil =>
            cases ys with
            | nil =>
              simp only [List.getLastD_cons, List.getLastD_nil] at ih ⊢
              simp [ih]
            | cons z zs => simp at hlen
          | cons w ws =>
            cases ys with
            | nil => simp at hlen
            | cons z zs =>
              simpa only [List.getLastD_cons] using ih

/-- The position (line, column) of the end of a prefix, as computed by
`offset_to_pos`. -/
def posOfPfx (pfx : List Char) : Pos :=
  ⟨(splitOnCh '\n' pfx).length - 1, ((splitOnCh '\n' pfx).getLastD []).length⟩

theorem offset_to_pos_eq_posOfPfx (text : List Char) (off : Int) :
    offset_to_pos text off = posOfPfx (text.take (clampOff text off)) := rfl

theorem posLe_refl (p : Pos) : posLe p p := Or.inr ⟨rfl, le_refl _⟩

theorem getLastD_append_singleton {α : Type} (l : List α) (x d : α) :
    (l ++ [x]).getLastD d = x := by
  induction l generalizing d with
  | nil => rfl
  | cons b bs ih => rw [List.cons_append, List.getLastD_cons, ih]

theorem posOfPfx_line (l : List Char) :
    (posOfPfx l).line = List.count '\n' l := by
  unfold posOfPfx
  simp [splitOnCh_length]

theorem posOfPfx_append_sep (x : List Char) :
    posOfPfx (x ++ ['\n']) = ⟨List.count '\n' x + 1, 0⟩ := by
  unfold posOfPfx
  rw [splitOnCh_append_sep, getLastD_append_singleton]
  simp [splitOnCh_length]

theorem posOfPfx_append_nonsep (x : List Char) (c : Char) (hc : ¬ c = '\n') :
    posOfPfx (x ++ [c]) = ⟨(posOfPfx x).line, (posOfPfx x).column + 1⟩ := by
  unfold posOfPfx
  rw [getLastD_splitOnCh_append_nonsep '\n' c hc x]
  have h1 : (splitOnCh '\n' (x ++ [c])).length = (splitOnCh '\n' x).length := by
    rw [splitOnCh_length, splitOnCh_length]
    simp [List.count_append, List.count_cons, hc]
  rw [h1]
  simp

theorem posOfPfx_append (a mid : List Char) :
    posLe (posOfPfx a) (posOfPfx (a ++ mid)) := by
  induction mid using List.reverseRecOn with
  | nil => simpa using posLe_refl (posOfPfx a)
  | append_singleton m c ih =>
    rw [← List.append_assoc]
    by_cases hc : c = '\n'
    · subst hc
      rw [posOfPfx_append_sep]
      left
      show (posOfPfx a).line < List.count '\n' (a ++ m) + 1
      rw [posOfPfx_line, List.count_append]
      omega
    · rw [posOfPfx_append_nonsep _ c hc]
      rcases ih with h | h
      · exact Or.inl h
      · refine Or.inr ⟨h.1, ?_⟩
        show (posOfPfx a).column ≤ (posOfPfx (a ++ m)).column + 1
        have := h.2
        omega

theorem clampOff_eq (text : List Char) (off : Int) :
    clampOff text off = (max 0 (min off (text.length : Int))).toNat := by
  unfold clampOff
  by_cases h1 : off < 0
  · rw [if_pos h1, if_neg (by omega : ¬ (text.length : Int) < 0)]
    omega
  · rw [if_neg h1]
    by_cases h2 : (text.length : Int) < off
    · rw [if_pos h2]
      omega
    · rw [if_neg h2]
      omega

theorem clampOff_le (text : List Char) (off : Int) :
    clampOff text off ≤ text.length := by
  rw [clampOff_eq]
  omega

theorem clampOff_mono (text : List Char) {o1 o2 : Int} (h : o1 ≤ o2) :
    clampOff text o1 ≤ clampOff text o2 := by
  rw [clampOff_eq, clampOff_eq]
  omega

theorem clampOff_clamp (text : List Char) (off : Int) :
    clampOff text (max 0 (min off (text.length : Int))) = clampOff text off := by
  rw [clampOff_eq, clampOff_eq]
  omega

/-- Monotonicity of `offset_to_pos` in the offset, for arbitrary integer
offsets (clamping preserves order). -/
theorem offset_to_pos_mono (text : List Char) {o1 o2 : Int} (h : o1 ≤ o2) :
    posLe (offset_to_pos text o1) (offset_to_pos text o2) := by
  rw [offset_to_pos_eq_posOfPfx, offset_to_pos_eq_posOfPfx]
  have h1 := clampOff_mono text h
  have h2 := clampOff_le text o2
  have hsplit : clampOff text o2 = clampOff text o1 +
      (clampOff text o2 - clampOff text o1) := by omega
  rw [hsplit, List.take_add]
  exact posOfPfx_append _ _

/-! ### Lemmas about the sanitizer -/

/-- Two adjacent characters are not both whitespace. -/
def noWsPair (a b : Char) : Prop := ¬ (isWs a = true ∧ isWs b = true)

instance (a b : Char) : Decidable (noWsPair a b) :=
  decidable_of_iff (¬ (isWs a = true ∧ isWs b = true)) Iff.rfl

/-- The shape invariant of `normTxt` output: every whitespace character
is a plain space, no two adjacent whitespace characters, no leading or
trailing whitespace, and no double quote. -/
def wsNormal (l : List Char) : Prop :=
  (∀ c ∈ l, isWs c = true → c = ' ') ∧
  l.Chain' noWsPair ∧
  (∀ c, l.head? = some c → isWs c = false) ∧
  (∀ c, l.getLast? = some c → isWs c = false) ∧
  (∀ c ∈ l, ¬ c = dq)

theorem dropWhile_head_id {p : Char → Bool} {l : List Char}
    (h : ∀ c, l.head? = some c → p c = false) : l.dropWhile p = l := by
  cases l with
  | nil => rfl
  | cons c rest =>
    have := h c rfl
    simp [List.dropWhile_cons, this]

theorem head?_dropWhile_false {p : Char → Bool} {l : List Char} {c : Char}
    (h : (l.dropWhile p).head? = some c) : p c = false := by
  induction l with
  | nil => simp [List.dropWhile] at h
  | cons a rest ih =>
    rw [List.dropWhile_cons] at h
    by_cases hp : p a = true
    · rw [if_pos hp] at h
      exact ih h
    · rw [if_neg hp] at h
      cases h
      simpa using hp

theorem rstrip_append (m : List Char) :
    m = rstrip m ++ (m.reverse.takeWhile isWs).reverse := by
  unfold rstrip
  conv_lhs => rw [← List.reverse_reverse m,
    ← List.takeWhile_append_dropWhile (p := isWs) (l := m.reverse)]
  rw [List.reverse_append]

theorem rstrip_id {l : List Char}
    (h : ∀ c, l.getLast? = some c → isWs c = false) : rstrip l = l := by
  unfold rstrip
  rw [dropWhile_head_id, List.reverse_reverse]
  intro c hc
  exact h c (by rwa [List.head?_reverse] at hc)

theorem rstrip_last {l : List Char} {c : Char}
    (h : (rstrip l).getLast? = some c) : isWs c = false := by
  unfold rstrip at h
  rw [List.getLast?_reverse] at h
  exact head?_dropWhile_false h

theorem rstrip_idem (l : List Char) : rstrip (rstrip l) = rstrip l :=
  rstrip_id (fun c h => rstrip_last h)

theorem rstrip_length_le (l : List Char) : (rstrip l).length ≤ l.length := by
  conv_rhs => rw [rstrip_append l]
  simp

theorem pyStrip_head {l : List Char} {c : Char}
    (h : (pyStrip l).head? = some c) : isWs c = false := by
  unfold pyStrip at h
  rcases hr : rstrip (lstrip l) with _ | ⟨x, xs⟩
  · rw [hr] at h; cases h
  · rw [hr] at h
    cases h
    have happ := rstrip_append (lstrip l)
    rw [hr] at happ
    have : (lstrip l).head? = some c := by
      rw [happ]; rfl
    exact head?_dropWhile_false this

theorem pyStrip_last {l : List Char} {c : Char}
    (h : (pyStrip l).getLast? = some c) : isWs c = false :=
  rstrip_last h

/-! ### Lemmas about `collapseWs` -/

theorem collapseWs_ne_nil {l : List Char} (h : l ≠ []) : collapseWs l ≠ [] := by
  induction l with
  | nil => exact absurd rfl h
  | cons a rest ih =>
    cases rest with
    | nil => simp [collapseWs]
    | cons b rest' =>
      unfold collapseWs
      by_cases hab : (isWs a && isWs b) = true
      · rw [if_pos hab]; exact ih (by simp)
      · rw [if_neg hab]; simp

theorem collapseWs_mem {l : List Char} {c : Char} (h : c ∈ collapseWs l) :
    c = ' ' ∨ c ∈ l := by
  induction l with
  | nil => simp [collapseWs] at h
  | cons a rest ih =>
    cases rest with
    | nil =>
      simp only [collapseWs, List.mem_singleton] at h
      by_cases ha : isWs a = true
      · rw [if_pos ha] at h; exact Or.inl h
      · rw [if_neg ha] at h; subst h; simp
    | cons b rest' =>
      unfold collapseWs at h
      by_cases hab : (isWs a && isWs b) = true
      · rw [if_pos hab] at h
        rcases ih h with h1 | h1
        · exact Or.inl h1
        · exact Or.inr (List.mem_cons_of_mem _ h1)
      · rw [if_neg hab] at h
        rcases List.mem_cons.mp h with rfl | h1
        · by_cases ha : isWs a = true
          · rw [if_pos ha]; simp
          · rw [if_neg ha]; simp
        · rcases ih h1 with h2 | h2
          · exact Or.inl h2
          · exact Or.inr (List.mem_cons_of_mem _ h2)

theorem collapseWs_space {l : List Char} {c : Char} (h : c ∈ collapseWs l)
    (hw : isWs c = true) : c = ' ' := by
  induction l with
  | nil => simp [collapseWs] at h
  | cons a rest ih =>
    cases rest with
    | nil =>
      simp only [collapseWs, List.mem_singleton] at h
      by_cases ha : isWs a = true
      · rw [if_pos ha] at h; exact h
      · rw [if_neg ha] at h; subst h; rw [hw] at ha; exact absurd rfl ha
    | cons b rest' =>
      unfold collapseWs at h
      by_cases hab : (isWs a && isWs b) = true
      · rw [if_pos hab] at h; exact ih h
      · rw [if_neg hab] at h
        rcases List.mem_cons.mp h with rfl | h1
        · by_cases ha : isWs a = true
          · simp [ha]
          · simp only [if_neg ha] at hw
            exact absurd hw ha
        · exact ih h1

theorem collapseWs_head_ws {l : List Char} {y : Char}
    (hy : (collapseWs l).head? = some y) (hw : isWs y = true) :
    ∃ c, l.head? = some c ∧ isWs c = true := by
  induction l with
  | nil => simp [collapseWs] at hy
  | cons a rest ih =>
    cases rest with
    | nil =>
      simp only [collapseWs, List.head?_cons] at hy
      cases hy
      by_cases ha : isWs a = true
      · exact ⟨a, rfl, ha⟩
      · rw [if_neg ha] at hw; exact absurd hw ha
    | cons b rest' =>
      unfold collapseWs at hy
      by_cases hab : (isWs a && isWs b) = true
      · exact ⟨a, rfl, (Bool.and_eq_true_iff.mp hab).1⟩
      · rw [if_neg hab] at hy
        rw [List.head?_cons] at hy
        cases hy
        by_cases ha : isWs a = true
        · exact ⟨a, rfl, ha⟩
        · rw [if_neg ha] at hw; exact absurd hw ha

theorem getLast?_cons_of_ne_nil {α : Type} {x : α} {M : List α} (h : M ≠ []) :
    (x :: M).getLast? = M.getLast? := by
  cases M with
  | nil => exact absurd rfl h
  | cons m ms => exact List.getLast?_cons_cons

theorem collapseWs_last_ws {l : List Char} {y : Char}
    (hy : (collapseWs l).getLast? = some y) (hw : isWs y = true) :
    ∃ c, l.getLast? = some c ∧ isWs c = true := by
  induction l with
  | nil => simp [collapseWs] at hy
  | cons a rest ih =>
    cases rest with
    | nil =>
      simp only [collapseWs] at hy
      rw [List.getLast?_singleton] at hy
      cases hy
      by_cases ha : isWs a = true
      · exact ⟨a, rfl, ha⟩
      · rw [if_neg ha] at hw; exact absurd hw ha
    | cons b rest' =>
      unfold collapseWs at hy
      by_cases hab : (isWs a && isWs b) = true
      · rw [if_pos hab] at hy
        rcases ih hy with ⟨c, hc1, hc2⟩
        exact ⟨c, by rw [List.getLast?_cons_cons]; exact hc1, hc2⟩
      · rw [if_neg hab] at hy
        rw [getLast?_cons_of_ne_nil (collapseWs_ne_nil (by simp))] at hy
        rcases ih hy with ⟨c, hc1, hc2⟩
        exact ⟨c, by rw [List.getLast?_cons_cons]; exact hc1, hc2⟩

theorem collapseWs_chain (l : List Char) : (collapseWs l).Chain' noWsPair := by
  induction l with
  | nil => simp [collapseWs]
  | cons a rest ih =>
    cases rest with
    | nil => simp [collapseWs]
    | cons b rest' =>
      unfold collapseWs
      by_cases hab : (isWs a && isWs b) = true
      · rw [if_pos hab]; exact ih
      · rw [if_neg hab]
        refine List.chain'_cons'.mpr ⟨?_, ih⟩
        intro y hy
        intro ⟨hwx, hwy⟩
        rcases collapseWs_head_ws hy hwy with ⟨c, hc1, hc2⟩
        rw [List.head?_cons] at hc1
        cases hc1
        have hwa : isWs a = true := by
          by_cases ha : isWs a = true
          · exact ha
          · rw [if_neg ha] at hwx; exact absurd hwx ha
        exact hab (by rw [hwa, hc2]; rfl)

/-! ### `normTxt` produces `wsNormal` output, and is the identity on it -/

theorem isWs_quote (c : Char) :
    isWs (if c = dq then sq else c) = isWs c := by
  by_cases h : c = dq
  · rw [if_pos h, h]; decide
  · rw [if_neg h]

theorem collapseWs_id {l : List Char}
    (hsp : ∀ c ∈ l, isWs c = true → c = ' ')
    (hch : l.Chain' noWsPair) : collapseWs l = l := by
  induction l with
  | nil => rfl
  | cons a rest ih =>
    cases rest with
    | nil =>
      simp only [collapseWs]
      by_cases ha : isWs a = true
      · rw [if_pos ha, hsp a (by simp) ha]
      · rw [if_neg ha]
    | cons b rest' =>
      unfold collapseWs
      have hnab : ¬ (isWs a && isWs b) = true := by
        intro hab
        exact (List.chain'_cons.mp hch).1
          ⟨(Bool.and_eq_true_iff.mp hab).1, (Bool.and_eq_true_iff.mp hab).2⟩
      rw [if_neg hnab]
      have htail := ih (fun c hc hw => hsp c (List.mem_cons_of_mem _ hc) hw)
        (List.chain'_cons.mp hch).2
      rw [htail]
      by_cases ha : isWs a = true
      · rw [if_pos ha, hsp a (by simp) ha]
      · rw [if_neg ha]

theorem quoteRepl_id {l : List Char} (h : ∀ c ∈ l, ¬ c = dq) :
    quoteRepl l = l := by
  unfold quoteRepl
  conv_rhs => rw [← List.map_id l]
  apply List.map_congr_left
  intro c hc
  simp [h c hc]

theorem pyStrip_id {l : List Char}
    (hh : ∀ c, l.head? = some c → isWs c = false)
    (hl : ∀ c, l.getLast? = some c → isWs c = false) : pyStrip l = l := by
  unfold pyStrip lstrip
  rw [dropWhile_head_id hh]
  exact rstrip_id hl

theorem normTxt_id {l : List Char} (h : wsNormal l) : normTxt l = l := by
  obtain ⟨h1, h2, h3, h4, h5⟩ := h
  unfold normTxt
  rw [pyStrip_id h3 h4, collapseWs_id h1 h2, quoteRepl_id h5]

theorem normTxt_wsNormal (s : List Char) : wsNormal (normTxt s) := by
  unfold normTxt
  set m := pyStrip s with hm
  have hcol_sp : ∀ c ∈ collapseWs m, isWs c = true → c = ' ' :=
    fun c hc hw => collapseWs_space hc hw
  have hcol_ch : (collapseWs m).Chain' noWsPair := collapseWs_chain m
  have hcol_hd : ∀ c, (collapseWs m).head? = some c → isWs c = false := by
    intro c hc
    by_cases hw : isWs c = true
    · rcases collapseWs_head_ws hc hw with ⟨d, hd1, hd2⟩
      rw [pyStrip_head hd1] at hd2
      cases hd2
    · simpa using hw
  have hcol_la : ∀ c, (collapseWs m).getLast? = some c → isWs c = false := by
    intro c hc
    by_cases hw : isWs c = true
    · rcases collapseWs_last_ws hc hw with ⟨d, hd1, hd2⟩
      rw [pyStrip_last hd1] at hd2
      cases hd2
    · simpa using hw
  refine ⟨?_, ?_, ?_, ?_, ?_⟩
  · intro c hc hw
    unfold quoteRepl at hc
    rcases List.mem_map.mp hc with ⟨d, hd, rfl⟩
    rw [isWs_quote d] at hw
    have := hcol_sp d hd hw
    subst this
    decide
  · unfold quoteRepl
    rw [List.chain'_map]
    apply hcol_ch.imp
    intro a b hab
    intro ⟨hx, hy⟩
    rw [isWs_quote] at hx hy
    exact hab ⟨hx, hy⟩
  · intro c hc
    unfold quoteRepl at hc
    rw [List.head?_map] at hc
    rcases ho : (collapseWs m).head? with _ | d
    · rw [ho] at hc; cases hc
    · rw [ho] at hc
      cases hc
      rw [isWs_quote]
      exact hcol_hd d ho
  · intro c hc
    unfold quoteRepl at hc
    rw [List.getLast?_map] at hc
    rcases ho : (collapseWs m).getLast? with _ | d
    · rw [ho] at hc; cases hc
    · rw [ho] at hc
      cases hc
      rw [isWs_quote]
      exact hcol_la d ho
  · intro c hc
    unfold quoteRepl at hc
    rcases List.mem_map.mp hc with ⟨d, _, rfl⟩
    by_cases h : d = dq
    · rw [if_pos h]; decide
    · rw [if_neg h]; exact h

theorem getLast?_append_right {α : Type} (l1 l2 : List α) (h : l2 ≠ []) :
    (l1 ++ l2).getLast? = l2.getLast? := by
  induction l1 with
  | nil => rfl
  | cons a as ih =>
    rw [List.cons_append,
      getLast?_cons_of_ne_nil (by simp [List.append_eq_nil, h]), ih]

/-- The truncated branch of the sanitizer still produces a `wsNormal`
string: the kept prefix inherits the invariant and the appended dots are
neither whitespace nor quotes. -/
theorem wsNormal_trunc {u : List Char} (h : wsNormal u) :
    wsNormal (rstrip (u.take 60) ++ ['.', '.', '.']) := by
  obtain ⟨h1, h2, h3, h4, h5⟩ := h
  have hqp := rstrip_append (u.take 60)
  have hmemq : ∀ c ∈ rstrip (u.take 60), c ∈ u := by
    intro c hc
    apply List.take_subset 60
    rw [hqp]
    exact List.mem_append_left _ hc
  have hchq : (u.take 60).Chain' noWsPair := by
    have hC : ((u.take 60) ++ u.drop 60).Chain' noWsPair := by
      rw [List.take_append_drop]; exact h2
    exact (List.chain'_append.mp hC).1
  have hchp : (rstrip (u.take 60)).Chain' noWsPair := by
    have := hchq
    rw [hqp] at this
    exact (List.chain'_append.mp this).1
  refine ⟨?_, ?_, ?_, ?_, ?_⟩
  · intro c hc hw
    rcases List.mem_append.mp hc with hc1 | hc1
    · exact h1 c (hmemq c hc1) hw
    · have : c = '.' := by simpa using hc1
      subst this
      cases hw
  · have hdots : (['.', '.', '.'] : List Char).Chain' noWsPair := by
      refine List.chain'_cons.mpr ⟨?_, List.chain'_cons.mpr ⟨?_,
        List.chain'_singleton _⟩⟩ <;>
        exact fun h => absurd h.1 (by decide)
    refine List.chain'_append.mpr ⟨hchp, hdots, ?_⟩
    intro x _ y hy
    have : y = '.' := by
      simp only [List.head?_cons, Option.mem_def, Option.some_inj] at hy
      exact hy.symm
    subst this
    intro ⟨_, hy2⟩
    cases hy2
  · intro c hc
    rcases hp : rstrip (u.take 60) with _ | ⟨x, xs⟩
    · rw [hp] at hc
      simp only [List.nil_append, List.head?_cons] at hc
      cases hc
      decide
    · rw [hp] at hc
      simp only [List.cons_append, List.head?_cons] at hc
      cases hc
      apply h3
      rw [hp] at hqp
      have hu : u = ((u.take 60)) ++ u.drop 60 := (List.take_append_drop 60 u).symm
      rw [hqp] at hu
      rw [hu]
      rfl
  · intro c hc
    rw [getLast?_append_right _ _ (by simp)] at hc
    have : c = '.' := by
      simp only [List.getLast?_cons_cons, List.getLast?_singleton,
        Option.some_inj] at hc
      exact hc.symm
    subst this
    decide
  · intro c hc
    rcases List.mem_append.mp hc with hc1 | hc1
    · exact h5 c (hmemq c hc1)
    · have : c = '.' := by simpa using hc1
      subst this
      decide

/-- The sanitizer written as one conditional over the normal form. -/
theorem sanitize60_formula (s : List Char) (hs : s.isEmpty = false) :
    sanitize60 s = if 60 < (normTxt s).length
      then rstrip ((normTxt s).take 60) ++ ['.', '.', '.'] else normTxt s := by
  unfold sanitize60 sanitize_text_for_attr
  rw [if_neg (by simp [hs])]

/-! ### Lemmas about the string search primitives -/

theorem startsWithCh_length {pat l : List Char} (h : startsWithCh pat l = true) :
    pat.length ≤ l.length := by
  induction pat generalizing l with
  | nil => simp
  | cons p ps ih =>
    cases l with
    | nil => simp [startsWithCh] at h
    | cons c cs =>
      simp only [startsWithCh, Bool.and_eq_true] at h
      simpa using ih h.2

theorem startsWithCI_length {pat l : List Char} (h : startsWithCI pat l = true) :
    pat.length ≤ l.length := by
  induction pat generalizing l with
  | nil => simp
  | cons p ps ih =>
    cases l with
    | nil => simp [startsWithCI] at h
    | cons c cs =>
      simp only [startsWithCI, Bool.and_eq_true] at h
      simpa using ih h.2

theorem findSub_bound {pat l : List Char} {j : Nat}
    (h : findSub pat l = some j) : j + pat.length ≤ l.length := by
  induction l generalizing j with
  | nil =>
    unfold findSub at h
    by_cases hp : pat.isEmpty
    · rw [if_pos hp] at h
      cases h
      simp [List.isEmpty_iff.mp hp]
    · rw [if_neg hp] at h; cases h
  | cons c cs ih =>
    unfold findSub at h
    by_cases hs : startsWithCh pat (c :: cs) = true
    · rw [if_pos hs] at h
      cases h
      simpa using startsWithCh_length hs
    · rw [if_neg hs] at h
      rcases Option.map_eq_some'.mp h with ⟨j', hj', rfl⟩
      have := ih hj'
      simp only [List.length_cons]
      omega

theorem rfindSub_bound {pat l : List Char} {j : Nat}
    (h : rfindSub pat l = some j) : j + pat.length ≤ l.length := by
  induction l generalizing j with
  | nil =>
    unfold rfindSub at h
    by_cases hp : pat.isEmpty
    · rw [if_pos hp] at h
      cases h
      simp [List.isEmpty_iff.mp hp]
    · rw [if_neg hp] at h; cases h
  | cons c cs ih =>
    unfold rfindSub at h
    cases hr : rfindSub pat cs with
    | some n =>
      rw [hr] at h
      cases h
      have := ih hr
      simp only [List.length_cons]
      omega
    | none =>
      rw [hr] at h
      by_cases hs : startsWithCh pat (c :: cs) = true
      · rw [if_pos hs] at h
        cases h
        simpa using startsWithCh_length hs
      · rw [if_neg hs] at h; cases h

theorem findSubCI_bound {pat l : List Char} {j : Nat}
    (h : findSubCI pat l = some j) : j + pat.length ≤ l.length := by
  induction l generalizing j with
  | nil =>
    unfold findSubCI at h
    by_cases hp : pat.isEmpty
    · rw [if_pos hp] at h
      cases h
      simp [List.isEmpty_iff.mp hp]
    · rw [if_neg hp] at h; cases h
  | cons c cs ih =>
    unfold findSubCI at h
    by_cases hs : startsWithCI pat (c :: cs) = true
    · rw [if_pos hs] at h
      cases h
      simpa using startsWithCI_length hs
    · rw [if_neg hs] at h
      rcases Option.map_eq_some'.mp h with ⟨j', hj', rfl⟩
      have := ih hj'
      simp only [List.length_cons]
      omega

theorem startsWithCh_append (pat t : List Char) :
    startsWithCh pat (pat ++ t) = true := by
  induction pat with
  | nil => rfl
  | cons p ps ih => simp [startsWithCh, ih]

theorem startsWithCh_take (l : List Char) (k : Nat) :
    startsWithCh (l.take k) l = true := by
  have h := startsWithCh_append (l.take k) (l.drop k)
  rwa [List.take_append_drop] at h

theorem startsWithCh_takeWhile (p : Char → Bool) (l : List Char) :
    startsWithCh (l.takeWhile p) l = true := by
  have h := startsWithCh_append (l.takeWhile p) (l.dropWhile p)
  rwa [List.takeWhile_append_dropWhile] at h

theorem findSub_isSome_of_starts {pat l : List Char} {i : Nat}
    (h : startsWithCh pat (l.drop i) = true) : (findSub pat l).isSome := by
  induction l generalizing i with
  | nil =>
    rw [List.drop_nil] at h
    have : pat = [] := by
      cases pat with
      | nil => rfl
      | cons p ps => simp [startsWithCh] at h
    subst this
    simp [findSub]
  | cons c cs ih =>
    unfold findSub
    by_cases hs : startsWithCh pat (c :: cs) = true
    · rw [if_pos hs]; rfl
    · rw [if_neg hs]
      cases i with
      | zero =>
        rw [List.drop_zero] at h
        exact absurd h hs
      | succ i' =>
        rw [List.drop_succ_cons] at h
        rw [Option.isSome_map']
        exact ih h

theorem startsWithCh_take_of {pat l : List Char} {m : Nat}
    (h : startsWithCh pat l = true) (hm : pat.length ≤ m) :
    startsWithCh pat (l.take m) = true := by
  induction pat generalizing l m with
  | nil => simp [startsWithCh]
  | cons p ps ih =>
    cases l with
    | nil => simp [startsWithCh] at h
    | cons c cs =>
      simp only [startsWithCh, Bool.and_eq_true] at h
      cases m with
      | zero => simp at hm
      | succ m' =>
        rw [List.take_succ_cons]
        simp only [startsWithCh, Bool.and_eq_true]
        exact ⟨h.1, ih h.2 (by simpa using hm)⟩

theorem startsWithCh_map {f : Char → Char} {pat l : List Char}
    (h : startsWithCh pat l = true) :
    startsWithCh (pat.map f) (l.map f) = true := by
  induction pat generalizing l with
  | nil => simp [startsWithCh]
  | cons p ps ih =>
    cases l with
    | nil => simp [startsWithCh] at h
    | cons c cs =>
      simp only [startsWithCh, Bool.and_eq_true] at h
      simp only [List.map_cons, startsWithCh, Bool.and_eq_true]
      exact ⟨by rw [decide_eq_true_iff.mp h.1]; simp, ih h.2⟩

/-! ### Lemmas about the scanner engine -/

/-- Every reported match lies within the scanned region and was produced
by the matcher on its own suffix. -/
theorem scanAllF_sound {α : Type} (m : Bool → List Char → Option (Nat × α))
    (hm : ∀ bw l n a, m bw l = some (n, a) → n ≤ l.length) :
    ∀ (fuel : Nat) (bw : Bool) (i : Nat) (l : List Char),
      ∀ x ∈ scanAllF m fuel bw i l,
        i ≤ x.1 ∧ x.1 + x.2.1 ≤ i + l.length ∧
          ∃ bw', m bw' (l.drop (x.1 - i)) = some (x.2.1, x.2.2) := by
  intro fuel
  induction fuel with
  | zero => intro bw i l x hx; simp [scanAllF] at hx
  | succ f ih =>
    intro bw i l x hx
    cases l with
    | nil => simp [scanAllF] at hx
    | cons c rest =>
      unfold scanAllF at hx
      cases hmm : m bw (c :: rest) with
      | none =>
        rw [hmm] at hx
        obtain ⟨h1, h2, bw', h3⟩ := ih _ _ _ x hx
        refine ⟨by omega, by simp only [List.length_cons]; omega, bw', ?_⟩
        have hd : (c :: rest).drop (x.1 - i) = rest.drop (x.1 - (i + 1)) := by
          have hx1 : i + 1 ≤ x.1 := h1
          have : x.1 - i = (x.1 - (i + 1)) + 1 := by omega
          rw [this, List.drop_succ_cons]
        rw [hd]
        exact h3
      | some na =>
        rw [hmm] at hx
        rcases List.mem_cons.mp hx with rfl | hx2
        · refine ⟨le_refl _, ?_, bw, by simpa using hmm⟩
          have hle := hm bw (c :: rest) na.1 na.2 (by rw [hmm])
          show i + na.1 ≤ i + (c :: rest).length
          omega
        · obtain ⟨h1, h2, bw', h3⟩ := ih _ _ _ x hx2
          have hstep1 : 1 ≤ (if na.1 = 0 then 1 else na.1) := by
            by_cases h0 : na.1 = 0 <;> simp [h0] <;> omega
          have hstepLe : (if na.1 = 0 then 1 else na.1) ≤ (c :: rest).length := by
            have := hm bw (c :: rest) na.1 na.2 (by rw [hmm])
            by_cases h0 : na.1 = 0 <;> simp [h0] <;> simp at this ⊢ <;> omega
          refine ⟨by omega, ?_, bw', ?_⟩
          · have hlen : ((c :: rest).drop (if na.1 = 0 then 1 else na.1)).length =
                (c :: rest).length - (if na.1 = 0 then 1 else na.1) := by
              simp
            omega
          · rw [List.drop_drop] at h3
            have harith : (if na.1 = 0 then 1 else na.1) + (x.1 - (i + (if na.1 = 0 then 1 else na.1))) = x.1 - i := by
              omega
            rw [harith] at h3
            exact h3

/-- Later matches start at or after the end of the first one. -/
theorem scanAllF_cons_rest {α : Type} (m : Bool → List Char → Option (Nat × α))
    (hm : ∀ bw l n a, m bw l = some (n, a) → n ≤ l.length) :
    ∀ (fuel : Nat) (bw : Bool) (i : Nat) (l : List Char) (x : Nat × Nat × α)
      (xs : List (Nat × Nat × α)), scanAllF m fuel bw i l = x :: xs →
      ∀ y ∈ xs, x.1 + (if x.2.1 = 0 then 1 else x.2.1) ≤ y.1 := by
  intro fuel
  induction fuel with
  | zero => intro bw i l x xs h; simp [scanAllF] at h
  | succ f ih =>
    intro bw i l x xs h
    cases l with
    | nil => simp [scanAllF] at h
    | cons c rest =>
      unfold scanAllF at h
      cases hmm : m bw (c :: rest) with
      | none =>
        rw [hmm] at h
        exact ih _ _ _ x xs h
      | some na =>
        rw [hmm] at h
        cases h
        intro y hy
        exact (scanAllF_sound m hm _ _ _ _ y hy).1

theorem scanAll_sound {α : Type} (m : Bool → List Char → Option (Nat × α))
    (hm : ∀ bw l n a, m bw l = some (n, a) → n ≤ l.length)
    (l : List Char) (x : Nat × Nat × α) (hx : x ∈ scanAll m l) :
    x.1 + x.2.1 ≤ l.length ∧
      ∃ bw', m bw' (l.drop x.1) = some (x.2.1, x.2.2) := by
  obtain ⟨_, h2, bw', h3⟩ := scanAllF_sound m hm l.length false 0 l x hx
  simp only [Nat.sub_zero] at h3
  exact ⟨by omega, bw', h3⟩

/-! ### Structure lemmas for the individual matchers -/

theorem rfindSub_isSome_of_starts {pat l : List Char} {i : Nat}
    (hne : pat ≠ []) (h : startsWithCh pat (l.drop i) = true) :
    (rfindSub pat l).isSome := by
  induction l generalizing i with
  | nil =>
    rw [List.drop_nil] at h
    cases pat with
    | nil => exact absurd rfl hne
    | cons p ps => simp [startsWithCh] at h
  | cons c cs ih =>
    unfold rfindSub
    cases hr : rfindSub pat cs with
    | some m => rfl
    | none =>
      by_cases hs : startsWithCh pat (c :: cs) = true
      · rw [if_pos hs]; rfl
      · rw [if_neg hs]
        cases i with
        | zero =>
          rw [List.drop_zero] at h
          exact absurd h hs
        | succ i' =>
          rw [List.drop_succ_cons] at h
          have := ih h
          rw [hr] at this
          cases this

theorem takeWhileLen (p : Char → Bool) (l : List Char) :
    (l.takeWhile p).length ≤ l.length := by
  induction l with
  | nil => simp
  | cons c cs ih =>
    rw [List.takeWhile_cons]
    by_cases h : p c = true
    · rw [if_pos h]; simpa using ih
    · rw [if_neg h]; simp

theorem tagVoidAt_sanity {tag l : List Char} {n : Nat} {attrs : List Char}
    (h : tagVoidAt tag l = some (n, attrs)) :
    1 ≤ n ∧ n ≤ l.length ∧ (∃ rest, l.drop (n - 1) = '>' :: rest) := by
  unfold tagVoidAt at h
  simp only [] at h
  by_cases h1 : startsWithCI ('<' :: tag) l = true
  case neg => rw [if_neg h1] at h; cases h
  rw [if_pos h1] at h
  by_cases h2 : boundaryOk (l.drop (tag.length + 1)) = true
  case neg => rw [if_neg h2] at h; cases h
  rw [if_pos h2] at h
  split at h
  swap
  · cases h
  rename_i rest heq
  simp only [Option.some_inj, Prod.mk.injEq] at h
  obtain ⟨hn, hattrs⟩ := h
  subst hattrs
  subst hn
  rw [List.drop_drop] at heq
  have hlen := congrArg List.length heq
  simp only [List.length_drop, List.length_cons] at hlen
  refine ⟨by omega, by omega, rest, ?_⟩
  rw [Nat.add_sub_cancel]
  exact heq

theorem tagPairAt_sanity {tag l : List Char} {n innerRel : Nat}
    {attrs inner : List Char}
    (h : tagPairAt tag l = some (n, (attrs, inner, innerRel))) :
    1 ≤ n ∧ n ≤ l.length ∧ innerRel + inner.length + (tag.length + 3) ≤ n := by
  unfold tagPairAt at h
  simp only [] at h
  by_cases h1 : startsWithCI ('<' :: tag) l = true
  case neg => rw [if_neg h1] at h; cases h
  rw [if_pos h1] at h
  by_cases h2 : boundaryOk (l.drop (tag.length + 1)) = true
  case neg => rw [if_neg h2] at h; cases h
  rw [if_pos h2] at h
  split at h
  swap
  · cases h
  rename_i rest2 heq
  split at h
  swap
  · cases h
  rename_i j hfind
  simp only [Option.some_inj, Prod.mk.injEq] at h
  obtain ⟨hn, hattrs, hinner, hrel⟩ := h
  subst hinner
  subst hrel
  subst hattrs
  subst hn
  rw [List.drop_drop] at heq
  have hlen := congrArg List.length heq
  have hjb := findSubCI_bound hfind
  simp only [List.length_drop, List.length_cons, List.length_append,
    List.length_nil, List.length_take] at hlen hjb ⊢
  refine ⟨by omega, by omega, by omega⟩

theorem hCloseAt_length {l : List Char} (h : hCloseAt l = true) :
    5 ≤ l.length := by
  unfold hCloseAt at h
  split at h
  · simp only [List.length_cons]
    omega
  · cases h

theorem findHClose_bound {l : List Char} {j : Nat}
    (h : findHClose l = some j) : j + 5 ≤ l.length := by
  induction l generalizing j with
  | nil => cases h
  | cons c cs ih =>
    unfold findHClose at h
    by_cases hc : hCloseAt (c :: cs) = true
    · rw [if_pos hc] at h
      cases h
      simpa using hCloseAt_length hc
    · rw [if_neg hc] at h
      rcases Option.map_eq_some'.mp h with ⟨j2, hj2, rfl⟩
      have := ih hj2
      simp only [List.length_cons]
      omega

theorem char_digit_bounds {d : Char} (h1 : decide ('1' ≤ d) = true)
    (h2 : decide (d ≤ '6') = true) :
    1 ≤ d.toNat - 48 ∧ d.toNat - 48 ≤ 6 := by
  have g1 : '1' ≤ d := of_decide_eq_true h1
  have g2 : d ≤ '6' := of_decide_eq_true h2
  have u1 : ('1' : Char).val ≤ d.val := Char.le_def.mp g1
  have u2 : d.val ≤ ('6' : Char).val := Char.le_def.mp g2
  have t1 : ('1' : Char).val.toNat ≤ d.val.toNat := by exact_mod_cast u1
  have t2 : d.val.toNat ≤ ('6' : Char).val.toNat := by exact_mod_cast u2
  have e1 : ('1' : Char).val.toNat = 49 := by decide
  have e2 : ('6' : Char).val.toNat = 54 := by decide
  unfold Char.toNat
  omega

theorem m_heading_sanity {bw : Bool} {l : List Char} {n level : Nat}
    {block : List Char}
    (h : m_heading bw l = some (n, (level, block))) :
    9 ≤ n ∧ n ≤ l.length ∧ block = l.take n ∧ 1 ≤ level ∧ level ≤ 6 := by
  unfold m_heading at h
  simp only [] at h
  split at h
  swap
  · cases h
  first
  | (rename_i hh d rest hl; subst hl)
  | rename_i hh d rest
  by_cases hcond : (decide (hh.toLower = 'h') &&
      (decide ('1' ≤ d) && decide (d ≤ '6'))) = true
  case neg => rw [if_neg hcond] at h; cases h
  rw [if_pos hcond] at h
  by_cases hbok : boundaryOk rest = true
  case neg => rw [if_neg hbok] at h; cases h
  rw [if_pos hbok] at h
  split at h
  swap
  · cases h
  rename_i rest2 heq
  split at h
  swap
  · cases h
  rename_i j hfind
  simp only [Option.some_inj, Prod.mk.injEq] at h
  obtain ⟨hn, hlev, hblock⟩ := h
  subst hblock
  subst hlev
  subst hn
  have hdig := Bool.and_eq_true_iff.mp hcond
  have hdig2 := Bool.and_eq_true_iff.mp hdig.2
  have hlv := char_digit_bounds hdig2.1 hdig2.2
  have hlen := congrArg List.length heq
  have hjb := findHClose_bound hfind
  simp only [List.length_drop, List.length_cons] at hlen
  refine ⟨by omega, ?_, rfl, hlv.1, hlv.2⟩
  simp only [List.length_cons]
  omega

theorem m_id_sanity {bw : Bool} {l : List Char} {n : Nat} {v : List Char}
    (h : m_id bw l = some (n, v)) :
    1 ≤ n ∧ n ≤ l.length ∧ ¬ v = [] ∧ v.length + 1 ≤ n ∧
      startsWithCh v (l.drop (n - v.length - 1)) = true := by
  unfold m_id at h
  simp only [] at h
  by_cases hbw : bw = true
  case pos => rw [if_pos hbw] at h; cases h
  rw [if_neg hbw] at h
  by_cases hid : startsWithCI "id".data l = true
  case neg => rw [if_neg hid] at h; cases h
  rw [if_pos hid] at h
  split at h
  swap
  · cases h
  rename_i r2 heq1
  split at h
  swap
  · cases h
  rename_i q r3 heq2
  by_cases hq : isQuote q = true
  case neg => rw [if_neg hq] at h; cases h
  rw [if_pos hq] at h
  by_cases hve : (r3.takeWhile (fun c => !isQuote c)).isEmpty = true
  case pos => rw [if_pos hve] at h; cases h
  rw [if_neg hve] at h
  split at h
  swap
  · cases h
  rename_i q2 tl heq3
  by_cases hq2 : isQuote q2 = true
  case neg => rw [if_neg hq2] at h; cases h
  rw [if_pos hq2] at h
  simp only [Option.some_inj, Prod.mk.injEq] at h
  obtain ⟨hn, hv⟩ := h
  subst hv
  subst hn
  have hvne : ¬ (r3.takeWhile (fun c => !isQuote c)) = [] := by
    intro hbad
    rw [hbad] at hve
    exact hve rfl
  rw [List.drop_drop] at heq1
  have step2 : l.drop (2 + ((l.drop 2).takeWhile isWs).length + 1) = r2 := by
    have h3 := congrArg List.tail heq1
    rw [List.tail_drop] at h3
    simpa using h3
  have step3 : l.drop (2 + ((l.drop 2).takeWhile isWs).length + 1 +
      (r2.takeWhile isWs).length) = q :: r3 := by
    rw [← List.drop_drop, step2]
    exact heq2
  have step4 : l.drop (2 + ((l.drop 2).takeWhile isWs).length + 1 +
      (r2.takeWhile isWs).length + 1) = r3 := by
    have h3 := congrArg List.tail step3
    rw [List.tail_drop] at h3
    simpa using h3
  have hlen1 := congrArg List.length heq1
  have hlen2 := congrArg List.length heq2
  have hlen3 := congrArg List.length heq3
  simp only [List.length_drop, List.length_cons] at hlen1 hlen2 hlen3
  refine ⟨by omega, by omega, hvne, by omega, ?_⟩
  have harith : 2 + ((l.drop 2).takeWhile isWs).length + 1 +
      (r2.takeWhile isWs).length + 1 +
      (r3.takeWhile (fun c => !isQuote c)).length + 1 -
      (r3.takeWhile (fun c => !isQuote c)).length - 1 =
      2 + ((l.drop 2).takeWhile isWs).length + 1 +
      (r2.takeWhile isWs).length + 1 := by omega
  rw [harith, step4]
  exact startsWithCh_takeWhile _ _

theorem m_tabindex_sanity {bw : Bool} {l : List Char} {n valRel : Nat}
    {ds : List Char}
    (h : m_tabindex bw l = some (n, (valRel, ds))) :
    1 ≤ n ∧ n ≤ l.length ∧ valRel + ds.length + 1 = n := by
  unfold m_tabindex at h
  simp only [] at h
  by_cases hbw : bw = true
  case pos => rw [if_pos hbw] at h; cases h
  rw [if_neg hbw] at h
  by_cases htab : startsWithCI "tabindex".data l = true
  case neg => rw [if_neg htab] at h; cases h
  rw [if_pos htab] at h
  split at h
  swap
  · cases h
  rename_i r2 heq1
  split at h
  swap
  · cases h
  rename_i q r3 heq2
  by_cases hq : isQuote q = true
  case neg => rw [if_neg hq] at h; cases h
  rw [if_pos hq] at h
  by_cases hde : (r3.takeWhile Char.isDigit).isEmpty = true
  case pos => rw [if_pos hde] at h; cases h
  rw [if_neg hde] at h
  split at h
  swap
  · cases h
  rename_i q2 tl heq3
  by_cases hq2 : isQuote q2 = true
  case neg => rw [if_neg hq2] at h; cases h
  rw [if_pos hq2] at h
  simp only [Option.some_inj, Prod.mk.injEq] at h
  obtain ⟨hn, hrel, hds⟩ := h
  subst hds
  subst hrel
  subst hn
  rw [List.drop_drop] at heq1
  have hlen1 := congrArg List.length heq1
  have hlen2 := congrArg List.length heq2
  have hlen3 := congrArg List.length heq3
  simp only [List.length_drop, List.length_cons] at hlen1 hlen2 hlen3
  refine ⟨by omega, by omega, by omega⟩

/-! ### Per-rule edit shape lemmas: offsets within bounds, ordered, and
non-empty replacement text -/

theorem m_img_le {bw : Bool} {l : List Char} {n : Nat} {a : List Char}
    (h : m_img bw l = some (n, a)) : n ≤ l.length := by
  unfold m_img at h
  exact (tagVoidAt_sanity h).2.1

theorem m_a_le {bw : Bool} {l : List Char} {n : Nat}
    {a : List Char × List Char × Nat} (h : m_a bw l = some (n, a)) :
    n ≤ l.length := by
  obtain ⟨a1, a2, a3⟩ := a
  unfold m_a at h
  exact (tagPairAt_sanity h).2.1

theorem m_button_le {bw : Bool} {l : List Char} {n : Nat}
    {a : List Char × List Char × Nat} (h : m_button bw l = some (n, a)) :
    n ≤ l.length := by
  obtain ⟨a1, a2, a3⟩ := a
  unfold m_button at h
  exact (tagPairAt_sanity h).2.1

theorem m_inputsel_str {bw : Bool} {l : List Char} {n : Nat}
    {a : List Char × List Char} (h : m_inputsel bw l = some (n, a)) :
    1 ≤ n ∧ n ≤ l.length ∧ ∃ rest, l.drop (n - 1) = '>' :: rest := by
  unfold m_inputsel at h
  split at h
  · rename_i n1 a1 heq
    simp only [Option.some_inj, Prod.mk.injEq] at h
    obtain ⟨hn, -⟩ := h
    subst hn
    exact tagVoidAt_sanity heq
  · split at h
    · rename_i n1 a1 heq
      simp only [Option.some_inj, Prod.mk.injEq] at h
      obtain ⟨hn, -⟩ := h
      subst hn
      exact tagVoidAt_sanity heq
    · split at h
      · rename_i n1 a1 heq
        simp only [Option.some_inj, Prod.mk.injEq] at h
        obtain ⟨hn, -⟩ := h
        subst hn
        exact tagVoidAt_sanity heq
      · cases h

/-- Every void-tag match text carries its closing bracket as last
character, so the `rfind(">")` used for insertion points succeeds and
lands inside the match. -/
theorem rfind_gt_of_tail {x : List Char} {n : Nat} (h1 : 1 ≤ n)
    (h2 : n ≤ x.length) (hgt : ∃ rest, x.drop (n - 1) = '>' :: rest) :
    ∃ r, rfindSub ['>'] (x.take n) = some r ∧ r + 1 ≤ n := by
  obtain ⟨rest, hrest⟩ := hgt
  have hst : startsWithCh ['>'] ((x.take n).drop (n - 1)) = true := by
    rw [List.drop_take]
    have he1 : n - (n - 1) = 1 := by omega
    rw [he1, hrest]
    simp [startsWithCh, List.take]
  have hs := rfindSub_isSome_of_starts (by decide) hst
  obtain ⟨r, hr⟩ := Option.isSome_iff_exists.mp hs
  refine ⟨r, hr, ?_⟩
  have hb := rfindSub_bound hr
  simp only [List.length_take, List.length_cons, List.length_nil] at hb
  omega

theorem append3_ne_nil_left {a b c : List Char} (ha : a ≠ []) :
    a ++ b ++ c ≠ [] := by
  intro hbad
  have h1 := congrArg List.length hbad
  simp only [List.length_append, List.length_nil] at h1
  have h2 : a.length = 0 := by omega
  exact ha (List.length_eq_zero.mp h2)

theorem append3_ne_nil_mid {a b c : List Char} (hb : b ≠ []) :
    a ++ b ++ c ≠ [] := by
  intro hbad
  have h1 := congrArg List.length hbad
  simp only [List.length_append, List.length_nil] at h1
  have h2 : b.length = 0 := by omega
  exact hb (List.length_eq_zero.mp h2)

theorem rule_image_alt_shape (code mode : List Char) (mlA : Bool)
    (cap : List Char → List Char) :
    ∀ e ∈ rule_image_alt code mode mlA cap,
      (0 ≤ e.o1 ∧ e.o1 ≤ e.o2 ∧ e.o2 ≤ (code.length : Int)) ∧
        e.newText ≠ [] := by
  intro e he
  unfold rule_image_alt at he
  rcases List.mem_filterMap.mp he with ⟨⟨s, n, attrs⟩, hmem, hf⟩
  unfold imgMatches at hmem
  obtain ⟨hb, bw, hmatch⟩ :=
    scanAll_sound m_img (fun bw l n a h => m_img_le h) code _ hmem
  simp only [] at hb hmatch hf
  unfold m_img at hmatch
  obtain ⟨hn1, hn2, hgt⟩ := tagVoidAt_sanity hmatch
  obtain ⟨r, hrf, hrb⟩ := rfind_gt_of_tail hn1 hn2 hgt
  by_cases hp : hasAttrPresence "alt".data false attrs = true
  · rw [if_pos hp] at hf; cases hf
  · rw [if_neg hp] at hf
    rw [hrf] at hf
    simp only [] at hf
    rcases Option.some_inj.mp hf with rfl
    constructor
    · simp only []
      refine ⟨by omega, by omega, by omega⟩
    · simp only []
      exact append3_ne_nil_left (by decide)

theorem rule_button_name_shape (code : List Char) :
    ∀ e ∈ rule_button_name code,
      (0 ≤ e.o1 ∧ e.o1 ≤ e.o2 ∧ e.o2 ≤ (code.length : Int)) ∧
        e.newText ≠ [] := by
  intro e he
  unfold rule_button_name at he
  rcases List.mem_filterMap.mp he with ⟨⟨s, n, attrs, inner, innerRel⟩, hmem, hf⟩
  unfold buttonMatches at hmem
  obtain ⟨hb, bw, hmatch⟩ :=
    scanAll_sound m_button (fun bw l n a h => m_button_le h) code _ hmem
  simp only [] at hb hmatch hf
  unfold m_button at hmatch
  obtain ⟨hn1, hn2, -⟩ := tagPairAt_sanity hmatch
  by_cases hp : (hasAttrPresence "aria-label".data false attrs ||
      hasAttrPresence "aria-labelledby".data false attrs ||
      hasAttrPresence "title".data false attrs) = true
  · rw [if_pos hp] at hf; cases hf
  · rw [if_neg hp] at hf
    by_cases hvis : (!(pyStrip (stripTagsStar inner)).isEmpty) = true
    · rw [if_pos hvis] at hf; cases hf
    · rw [if_neg hvis] at hf
      cases hfd : findSub ['>'] ((code.drop s).take n) with
      | some f =>
        rw [hfd] at hf
        simp only [] at hf
        rcases Option.some_inj.mp hf with rfl
        have hfb := findSub_bound hfd
        simp only [List.length_take, List.length_cons, List.length_nil] at hfb
        constructor
        · simp only []
          refine ⟨by omega, by omega, by omega⟩
        · simp only []
          exact append3_ne_nil_left (by decide)
      | none =>
        rw [hfd] at hf
        simp only [] at hf
        rcases Option.some_inj.mp hf with rfl
        constructor
        · simp only []
          refine ⟨by omega, by omega, by omega⟩
        · simp only []
          exact append3_ne_nil_left (by decide)

theorem rule_link_name_shape (code : List Char) :
    ∀ e ∈ rule_link_name code,
      (0 ≤ e.o1 ∧ e.o1 ≤ e.o2 ∧ e.o2 ≤ (code.length : Int)) ∧
        e.newText ≠ [] := by
  intro e he
  unfold rule_link_name at he
  rcases List.mem_filterMap.mp he with ⟨⟨s, n, attrs, inner, innerRel⟩, hmem, hf⟩
  unfold aMatches at hmem
  obtain ⟨hb, bw, hmatch⟩ :=
    scanAll_sound m_a (fun bw l n a h => m_a_le h) code _ hmem
  simp only [] at hb hmatch hf
  unfold m_a at hmatch
  obtain ⟨hn1, hn2, hrel⟩ := tagPairAt_sanity hmatch
  have hta : ("a".data).length = 1 := by decide
  by_cases hp : hasAttrPresence "aria-label".data false attrs = true
  · rw [if_pos hp] at hf; cases hf
  rw [if_neg hp] at hf
  by_cases hvis : (!(pyStrip (stripTagsStar inner)).isEmpty) = true
  · rw [if_pos hvis] at hf; cases hf
  rw [if_neg hvis] at hf
  cases hsf : searchFirst m_img inner with
  | some im =>
    obtain ⟨ims, imn, imattrs⟩ := im
    rw [hsf] at hf
    simp only [] at hf
    have himem : (ims, imn, imattrs) ∈ scanAll m_img inner := by
      unfold searchFirst at hsf
      exact List.mem_of_mem_head? (Option.mem_def.mpr hsf)
    obtain ⟨hib, ibw, himatch⟩ :=
      scanAll_sound m_img (fun bw l n a h => m_img_le h) inner _ himem
    simp only [] at hib himatch
    unfold m_img at himatch
    obtain ⟨hi1, hi2, higt⟩ := tagVoidAt_sanity himatch
    by_cases hialt : hasAttrPresence "alt".data false imattrs = true
    · rw [if_pos hialt] at hf
      simp only [] at hf
      cases hfd : findSub ['>'] ((code.drop s).take n) with
      | some f =>
        rw [hfd] at hf
        simp only [] at hf
        rcases Option.some_inj.mp hf with rfl
        have hfb := findSub_bound hfd
        simp only [List.length_take, List.length_cons, List.length_nil] at hfb
        constructor
        · simp only []
          refine ⟨by omega, by omega, by omega⟩
        · simp only []
          exact append3_ne_nil_left (by decide)
      | none =>
        rw [hfd] at hf
        simp only [] at hf
        rcases Option.some_inj.mp hf with rfl
        constructor
        · simp only []
          refine ⟨by omega, by omega, by omega⟩
        · simp only []
          exact append3_ne_nil_left (by decide)
    · rw [if_neg hialt] at hf
      have himg0 : startsWithCh ((inner.drop ims).take imn) (inner.drop ims) = true :=
        startsWithCh_take _ _
      obtain ⟨k, hk⟩ :=
        Option.isSome_iff_exists.mp (findSub_isSome_of_starts himg0)
      obtain ⟨rr, hrr, hrrb⟩ := rfind_gt_of_tail hi1 hi2 higt
      rw [hk, hrr] at hf
      simp only [] at hf
      rcases Option.some_inj.mp hf with rfl
      have hkb := findSub_bound hk
      simp only [List.length_take, List.length_drop] at hkb hi2
      constructor
      · simp only []
        refine ⟨by omega, by omega, by omega⟩
      · simp only []
        exact append3_ne_nil_left (by decide)
  | none =>
    rw [hsf] at hf
    simp only [] at hf
    cases hfd : findSub ['>'] ((code.drop s).take n) with
    | some f =>
      rw [hfd] at hf
      simp only [] at hf
      rcases Option.some_inj.mp hf with rfl
      have hfb := findSub_bound hfd
      simp only [List.length_take, List.length_cons, List.length_nil] at hfb
      constructor
      · simp only []
        refine ⟨by omega, by omega, by omega⟩
      · simp only []
        exact append3_ne_nil_left (by decide)
    | none =>
      rw [hfd] at hf
      simp only [] at hf
      rcases Option.some_inj.mp hf with rfl
      constructor
      · simp only []
        refine ⟨by omega, by omega, by omega⟩
      · simp only []
        exact append3_ne_nil_left (by decide)

theorem rule_no_positive_tabindex_shape (code : List Char) :
    ∀ e ∈ rule_no_positive_tabindex code,
      (0 ≤ e.o1 ∧ e.o1 ≤ e.o2 ∧ e.o2 ≤ (code.length : Int)) ∧
        e.newText ≠ [] := by
  intro e he
  unfold rule_no_positive_tabindex at he
  rcases List.mem_filterMap.mp he with ⟨⟨s, n, valRel, ds⟩, hmem, hf⟩
  obtain ⟨hb, bw, hmatch⟩ := scanAll_sound m_tabindex
    (fun bw l n a h => by
      obtain ⟨a1, a2⟩ := a
      exact (m_tabindex_sanity h).2.1) code _ hmem
  simp only [] at hb hmatch hf
  obtain ⟨h1, h2, h3⟩ := m_tabindex_sanity hmatch
  by_cases hpos : 0 < natOfDigits ds
  · rw [if_pos hpos] at hf
    rcases Option.some_inj.mp hf with rfl
    constructor
    · simp only []
      refine ⟨by omega, by omega, by omega⟩
    · simp only []
      decide
  · rw [if_neg hpos] at hf
    cases hf

theorem rule_html_lang_shape (code : List Char) :
    ∀ e ∈ rule_html_lang code,
      (0 ≤ e.o1 ∧ e.o1 ≤ e.o2 ∧ e.o2 ≤ (code.length : Int)) ∧
        e.newText ≠ [] := by
  intro e he
  unfold rule_html_lang at he
  cases hsf : searchFirst (fun _ l => tagVoidAt "html".data l) code with
  | none => rw [hsf] at he; simp at he
  | some m =>
    obtain ⟨s, n, attrs⟩ := m
    rw [hsf] at he
    simp only [] at he
    have hmem : (s, n, attrs) ∈ scanAll (fun _ l => tagVoidAt "html".data l) code := by
      unfold searchFirst at hsf
      exact List.mem_of_mem_head? (Option.mem_def.mpr hsf)
    obtain ⟨hb, bw, hmatch⟩ := scanAll_sound _
      (fun bw l n a h => (tagVoidAt_sanity h).2.1) code _ hmem
    simp only [] at hb hmatch
    obtain ⟨h1, h2, hgt⟩ := tagVoidAt_sanity hmatch
    obtain ⟨r, hrf, hrb⟩ := rfind_gt_of_tail h1 h2 hgt
    by_cases hp : hasAttrPresence "lang".data false attrs = true
    · rw [if_pos hp] at he; simp at he
    · rw [if_neg hp] at he
      rw [hrf] at he
      simp only [List.mem_singleton] at he
      subst he
      constructor
      · simp only []
        refine ⟨by omega, by omega, by omega⟩
      · simp only []
        decide

theorem ruleInputGo_shape (code : List Char) :
    ∀ ms : List (Nat × Nat × (List Char × List Char)),
      (∀ m ∈ ms, m.1 + m.2.1 ≤ code.length ∧
        ∃ bw, m_inputsel bw (code.drop m.1) = some (m.2.1, m.2.2)) →
      ∀ es, ruleInputGo code ms = some es →
      ∀ e ∈ es, (0 ≤ e.o1 ∧ e.o1 ≤ e.o2 ∧ e.o2 ≤ (code.length : Int)) ∧
        e.newText ≠ [] := by
  intro ms
  induction ms with
  | nil =>
    intro hms es h e he
    unfold ruleInputGo at h
    cases h
    simp at he
  | cons m ms ih =>
    intro hms es h e he
    obtain ⟨s, n, tag, attrs⟩ := m
    obtain ⟨hb, bw, hmatch⟩ := hms _ (List.mem_cons_self _ _)
    simp only [] at hb hmatch
    obtain ⟨hn1, hn2, hgt⟩ := m_inputsel_str hmatch
    obtain ⟨r, hrf, hrb⟩ := rfind_gt_of_tail hn1 hn2 hgt
    have hms2 : ∀ m ∈ ms, m.1 + m.2.1 ≤ code.length ∧
        ∃ bw, m_inputsel bw (code.drop m.1) = some (m.2.1, m.2.2) :=
      fun m hm => hms m (List.mem_cons_of_mem _ hm)
    unfold ruleInputGo at h
    simp only [] at h
    cases hav : attrValSearch "id".data false attrs with
    | some idv =>
      rw [hav] at h
      simp only [] at h
      by_cases hskip : (hasAttrPresence "aria-label".data false attrs ||
          hasAttrPresence "aria-labelledby".data false attrs ||
          hasLabelFor code idv) = true
      · rw [if_pos hskip] at h
        exact ih hms2 es h e he
      · rw [if_neg hskip] at h
        split at h
        · cases h
        rename_i label hglab
        split at h
        · cases h
        rename_i es2 hes2
        rw [hrf] at h
        simp only [] at h
        cases h
        rcases List.mem_cons.mp he with rfl | he2
        · constructor
          · simp only []
            refine ⟨by omega, by omega, by omega⟩
          · simp only []
            exact append3_ne_nil_left (by decide)
        · exact ih hms2 es2 hes2 e he2
    | none =>
      rw [hav] at h
      simp only [] at h
      by_cases hskip : (hasAttrPresence "aria-label".data false attrs ||
          hasAttrPresence "aria-labelledby".data false attrs || false) = true
      · rw [if_pos hskip] at h
        exact ih hms2 es h e he
      · rw [if_neg hskip] at h
        split at h
        · cases h
        rename_i label hglab
        split at h
        · cases h
        rename_i es2 hes2
        rw [hrf] at h
        simp only [] at h
        cases h
        rcases List.mem_cons.mp he with rfl | he2
        · constructor
          · simp only []
            refine ⟨by omega, by omega, by omega⟩
          · simp only []
            exact append3_ne_nil_left (by decide)
        · exact ih hms2 es2 hes2 e he2

theorem rule_input_label_shape (code : List Char) {es : List OffEdit}
    (h : rule_input_label code = some es) :
    ∀ e ∈ es, (0 ≤ e.o1 ∧ e.o1 ≤ e.o2 ∧ e.o2 ≤ (code.length : Int)) ∧
      e.newText ≠ [] := by
  unfold rule_input_label at h
  refine ruleInputGo_shape code (inputMatches code) ?_ es h
  intro m hm
  unfold inputMatches at hm
  exact scanAll_sound m_inputsel
    (fun bw l n a h2 => (m_inputsel_str h2).2.1) code m hm

theorem snd_mem_of_mem_enum {α : Type} {p : Nat × α} {l : List α}
    (h : p ∈ l.enum) : p.2 ∈ l := by
  have h2 := List.enum_map_snd l
  exact h2 ▸ List.mem_map_of_mem Prod.snd h

theorem upsertGroup_inv (Q : List Char → Int → Prop) :
    ∀ (g : List (List Char × List Int)) (v : List Char) (i : Int),
      (∀ p ∈ g, ∀ j ∈ p.2, Q p.1 j) → Q v i →
      ∀ p ∈ upsertGroup g v i, ∀ j ∈ p.2, Q p.1 j := by
  intro g
  induction g with
  | nil =>
    intro v i hg hvi p hp j hj
    simp only [upsertGroup, List.mem_singleton] at hp
    subst hp
    simp only [List.mem_singleton] at hj
    subst hj
    exact hvi
  | cons q g ih =>
    intro v i hg hvi p hp j hj
    obtain ⟨w, arr⟩ := q
    unfold upsertGroup at hp
    by_cases hw : w = v
    · rw [if_pos hw] at hp
      rcases List.mem_cons.mp hp with rfl | hp2
      · simp only [] at hj
        rcases List.mem_append.mp hj with hj1 | hj2
        · exact hg (w, arr) (List.mem_cons_self _ _) j hj1
        · simp only [List.mem_singleton] at hj2
          rw [hj2]
          show Q w i
          rw [hw]
          exact hvi
      · exact hg _ (List.mem_cons_of_mem _ hp2) j hj
    · rw [if_neg hw] at hp
      rcases List.mem_cons.mp hp with rfl | hp2
      · exact hg _ (List.mem_cons_self _ _) j hj
      · exact ih v i (fun p hp j hj => hg p (List.mem_cons_of_mem _ hp) j hj)
          hvi p hp2 j hj

theorem foldGroups_inv (Q : List Char → Int → Prop) :
    ∀ (occs : List (List Char × Int)) (g0 : List (List Char × List Int)),
      (∀ p ∈ g0, ∀ j ∈ p.2, Q p.1 j) →
      (∀ q ∈ occs, Q q.1 q.2) →
      ∀ p ∈ occs.foldl (fun g q => upsertGroup g q.1 q.2) g0,
        ∀ j ∈ p.2, Q p.1 j := by
  intro occs
  induction occs with
  | nil =>
    intro g0 hg hq p hp j hj
    simp only [List.foldl_nil] at hp
    exact hg p hp j hj
  | cons q occs ih =>
    intro g0 hg hq p hp j hj
    simp only [List.foldl_cons] at hp
    exact ih (upsertGroup g0 q.1 q.2)
      (upsertGroup_inv Q g0 q.1 q.2 hg (hq q (List.mem_cons_self _ _)))
      (fun q2 hq2 => hq q2 (List.mem_cons_of_mem _ hq2)) p hp j hj

theorem idOccurrences_Q (code : List Char) :
    ∀ q ∈ idOccurrences code,
      0 ≤ q.2 ∧ q.2 + (q.1.length : Int) ≤ (code.length : Int) := by
  intro q hq
  unfold idOccurrences at hq
  rcases List.mem_map.mp hq with ⟨⟨s, n, v⟩, hmem, hqe⟩
  unfold idMatches at hmem
  obtain ⟨hb, bw, hmatch⟩ := scanAll_sound m_id
    (fun bw l n a h => (m_id_sanity h).2.1) code _ hmem
  simp only [] at hb hmatch hqe
  obtain ⟨h1, h2, hvne, hvlen, hstarts⟩ := m_id_sanity hmatch
  have hlow : startsWithCh (lowerL v)
      ((lowerL (code.drop s)).drop (n - v.length - 1)) = true := by
    unfold lowerL
    rw [← List.map_drop]
    exact startsWithCh_map hstarts
  have hwithin : startsWithCh (lowerL v)
      (((lowerL (code.drop s)).take n).drop (n - v.length - 1)) = true := by
    rw [List.drop_take]
    refine startsWithCh_take_of hlow ?_
    unfold lowerL
    simp only [List.length_map]
    omega
  obtain ⟨k, hk⟩ :=
    Option.isSome_iff_exists.mp (findSub_isSome_of_starts hwithin)
  have hk2 : findSub (lowerL v) (lowerL ((code.drop s).take n)) = some k := by
    have hmt : lowerL ((code.drop s).take n) = (lowerL (code.drop s)).take n := by
      unfold lowerL
      exact List.map_take _ _ _
    rw [hmt]
    exact hk
  rw [hk2] at hqe
  simp only [] at hqe
  subst hqe
  have hkb := findSub_bound hk
  unfold lowerL at hkb
  simp only [List.length_take, List.length_map, List.length_drop] at hkb
  constructor
  · simp only []
    omega
  · simp only []
    omega

theorem dupEditsFor_shape {v : List Char} {arr : List Int} {e : OffEdit}
    (he : e ∈ dupEditsFor v arr) :
    2 ≤ arr.length ∧ ∃ i ∈ arr, e.o1 = i ∧ e.o2 = i + (v.length : Int) ∧
      e.newText ≠ [] ∧ startsWithCh (v ++ ['-']) e.newText = true := by
  unfold dupEditsFor at he
  by_cases hlen : arr.length ≤ 1
  · rw [if_pos hlen] at he; simp at he
  · rw [if_neg hlen] at he
    rcases List.mem_filterMap.mp he with ⟨⟨i0, j⟩, hp, hf⟩
    simp only [] at hf
    by_cases hz : i0 = 0
    · rw [if_pos hz] at hf; cases hf
    · rw [if_neg hz] at hf
      rcases Option.some_inj.mp hf with rfl
      refine ⟨by omega, j, snd_mem_of_mem_enum hp, rfl, rfl, ?_, ?_⟩
      · exact append3_ne_nil_mid (by decide)
      · exact startsWithCh_append _ _

theorem rule_duplicate_id_shape (code : List Char) :
    ∀ e ∈ rule_duplicate_id code,
      (0 ≤ e.o1 ∧ e.o1 ≤ e.o2 ∧ e.o2 ≤ (code.length : Int)) ∧
        e.newText ≠ [] := by
  intro e he
  unfold rule_duplicate_id at he
  rcases List.mem_bind.mp he with ⟨g, hg, hge⟩
  have hQ : ∀ p ∈ idGroups code, ∀ j ∈ p.2,
      0 ≤ j ∧ j + (p.1.length : Int) ≤ (code.length : Int) := by
    unfold idGroups
    refine foldGroups_inv
      (fun v j => 0 ≤ j ∧ j + (v.length : Int) ≤ (code.length : Int))
      (idOccurrences code) [] ?_ ?_
    · intro p hp; simp at hp
    · intro q hq
      exact idOccurrences_Q code q hq
  obtain ⟨h2len, i, hi, ho1, ho2, hnt, hsw⟩ := dupEditsFor_shape hge
  have hQg := hQ g hg i hi
  refine ⟨⟨?_, ?_, ?_⟩, hnt⟩
  · rw [ho1]; exact hQg.1
  · rw [ho1, ho2]
    have := hQg.1
    omega
  · rw [ho2]; exact hQg.2

theorem reprDigitLen {lv : Nat} (h1 : 1 ≤ lv) (h6 : lv ≤ 6) :
    (Nat.repr lv).data.length = 1 := by
  have hc : lv = 1 ∨ lv = 2 ∨ lv = 3 ∨ lv = 4 ∨ lv = 5 ∨ lv = 6 := by omega
  rcases hc with rfl | rfl | rfl | rfl | rfl | rfl <;> decide

theorem headingWalk_shape (code : List Char) :
    ∀ (ms : List (Nat × Nat × (Nat × List Char))) (lv : Nat),
      (∀ m ∈ ms, 1 ≤ m.1 ∧ m.1 + m.2.1 ≤ code.length ∧ 9 ≤ m.2.1 ∧
        1 ≤ m.2.2.1 ∧ m.2.2.1 ≤ 6 ∧ m.2.2.2.length ≤ m.2.1) →
      ∀ e ∈ (headingWalk (some lv) ms).1,
        (0 ≤ e.o1 ∧ e.o1 ≤ e.o2 ∧ e.o2 ≤ (code.length : Int)) ∧
          e.newText ≠ [] := by
  intro ms
  induction ms with
  | nil => intro lv hms e he; simp [headingWalk] at he
  | cons m ms ih =>
    intro lv hms e he
    obtain ⟨s, n, level, block⟩ := m
    obtain ⟨hs1, hsn, hn9, hl1, hl6, hbl⟩ := hms _ (List.mem_cons_self _ _)
    simp only [] at hs1 hsn hn9 hl1 hl6 hbl
    have hms2 : ∀ m ∈ ms, 1 ≤ m.1 ∧ m.1 + m.2.1 ≤ code.length ∧ 9 ≤ m.2.1 ∧
        1 ≤ m.2.2.1 ∧ m.2.2.1 ≤ 6 ∧ m.2.2.2.length ≤ m.2.1 :=
      fun m hm => hms m (List.mem_cons_of_mem _ hm)
    have hrlev := reprDigitLen hl1 hl6
    have hhl : ('h' :: (Nat.repr level).data).length = 2 := by
      simp [hrlev]
    unfold headingWalk at he
    simp only [] at he
    by_cases hc : lv + 1 < level
    · rw [if_pos hc] at he
      simp only [] at he
      rcases List.mem_cons.mp he with rfl | he2
      · constructor
        · simp only []
          cases hfo : findSub ('h' :: (Nat.repr level).data) block with
          | some k =>
            simp only []
            have hkb := findSub_bound hfo
            refine ⟨by omega, by omega, by omega⟩
          | none =>
            simp only []
            refine ⟨by omega, by omega, by omega⟩
        · simp only []
          exact List.cons_ne_nil _ _
      · rcases List.mem_cons.mp he2 with rfl | he3
        · have hplen : ('<' :: '/' ::
              (('h' :: (Nat.repr level).data) ++ ['>'])).length = 5 := by
            simp [hrlev]
          constructor
          · simp only []
            cases hfc : rfindSub ('<' :: '/' ::
                (('h' :: (Nat.repr level).data) ++ ['>'])) block with
            | some k =>
              simp only []
              have hkb := rfindSub_bound hfc
              refine ⟨by omega, by omega, by omega⟩
            | none =>
              simp only []
              refine ⟨by omega, by omega, by omega⟩
          · simp only []
            exact List.cons_ne_nil _ _
        · exact ih level hms2 e he3
    · rw [if_neg hc] at he
      exact ih level hms2 e he

theorem rule_heading_order_shape (code : List Char) :
    ∀ e ∈ (rule_heading_order code).1,
      (0 ≤ e.o1 ∧ e.o1 ≤ e.o2 ∧ e.o2 ≤ (code.length : Int)) ∧
        e.newText ≠ [] := by
  have hmle : ∀ (bw : Bool) (l : List Char) (n : Nat) (a : Nat × List Char),
      m_heading bw l = some (n, a) → n ≤ l.length := by
    intro bw l n a h
    obtain ⟨lvl, blk⟩ := a
    exact (m_heading_sanity h).2.1
  intro e he
  unfold rule_heading_order at he
  cases hms : headingMatches code with
  | nil => rw [hms] at he; simp [headingWalk] at he
  | cons m0 rest =>
    rw [hms] at he
    unfold headingWalk at he
    simp only [] at he
    refine headingWalk_shape code rest m0.2.2.1 ?_ e he
    intro m hm
    have hmem : m ∈ scanAll m_heading code := by
      unfold headingMatches at hms
      rw [hms]
      exact List.mem_cons_of_mem _ hm
    have hfirst := scanAllF_cons_rest m_heading hmle code.length false 0 code
      m0 rest (by unfold headingMatches scanAll at hms; exact hms) m hm
    have hm0mem : m0 ∈ scanAll m_heading code := by
      unfold headingMatches at hms
      rw [hms]
      exact List.mem_cons_self _ _
    have hone : 1 ≤ (if m0.2.1 = 0 then 1 else m0.2.1) := by
      split
      · omega
      · obtain ⟨hb0, bw0, hmatch0⟩ := scanAll_sound m_heading hmle code m0 hm0mem
        omega
    obtain ⟨s2, n2, lvl2, blk2⟩ := m
    obtain ⟨hb, bw, hmatch⟩ := scanAll_sound m_heading hmle code _ hmem
    simp only [] at hb hmatch hfirst
    obtain ⟨h9, hlen2, hblk, hlv1, hlv6⟩ := m_heading_sanity hmatch
    refine ⟨by omega, hb, h9, hlv1, hlv6, ?_⟩
    show blk2.length ≤ n2
    rw [hblk]
    simp only [List.length_take]
    omega

/-! ### Non-emptiness of the guessers -/

theorem sanitize60_pyStrip_ne_nil {x : List Char} (hne : pyStrip x ≠ []) :
    sanitize60 (pyStrip x) ≠ [] := by
  have hemp : (pyStrip x).isEmpty = false := by
    cases hc : pyStrip x with
    | nil => exact absurd hc hne
    | cons a as => rfl
  have hid : pyStrip (pyStrip x) = pyStrip x :=
    pyStrip_id (fun c hc => pyStrip_head hc) (fun c hc => pyStrip_last hc)
  have hnt : normTxt (pyStrip x) ≠ [] := by
    unfold normTxt
    rw [hid]
    intro hbad
    unfold quoteRepl at hbad
    exact collapseWs_ne_nil hne (List.map_eq_nil.mp hbad)
  rw [sanitize60_formula _ hemp]
  split
  · intro hbad
    rcases List.append_eq_nil.mp hbad with ⟨-, h2⟩
    cases h2
  · exact hnt

theorem ite_ne_nil {c : Prop} [Decidable c] {a b : List Char}
    (ha : a ≠ []) (hb : b ≠ []) : (if c then a else b) ≠ [] := by
  split
  · exact ha
  · exact hb

theorem append_ne_nil_left2 {a b : List Char} (ha : a ≠ []) : a ++ b ≠ [] := by
  intro hbad
  rcases List.append_eq_nil.mp hbad with ⟨h1, -⟩
  exact ha h1

theorem guess_alt_ne_nil (src : List Char) : guess_alt_from_src src ≠ [] := by
  unfold guess_alt_from_src
  split
  · decide
  dsimp only []
  split
  · decide
  split
  · decide
  exact List.cons_ne_nil _ _

theorem guess_button_ne_nil (attrs inner : List Char) :
    guess_button_label_from_attrs attrs inner ≠ [] := by
  unfold guess_button_label_from_attrs
  dsimp only []
  by_cases hv : (!(pyStrip (stripTagsStar inner)).isEmpty) = true
  · rw [if_pos hv]
    refine sanitize60_pyStrip_ne_nil ?_
    intro hbad
    rw [hbad] at hv
    exact absurd hv (by decide)
  · rw [if_neg hv]
    split
    · decide
    split
    · decide
    split
    · decide
    split
    · decide
    split
    · decide
    split
    · decide
    decide

theorem guess_link_ne_nil (href inner : List Char) :
    guess_link_label_from_href href inner ≠ [] := by
  unfold guess_link_label_from_href
  dsimp only []
  by_cases h0 : href.isEmpty = true
  · rw [if_pos h0]
    by_cases hv : (!(pyStrip (stripTagsPlus inner)).isEmpty) = true
    · rw [if_pos hv]
      refine sanitize60_pyStrip_ne_nil ?_
      intro hbad
      rw [hbad] at hv
      exact absurd hv (by decide)
    · rw [if_neg hv]
      decide
  · rw [if_neg h0]
    exact ite_ne_nil (by decide)
      (ite_ne_nil (by decide)
        (ite_ne_nil (by decide)
          (ite_ne_nil (by decide)
            (ite_ne_nil (by decide)
              (ite_ne_nil (by decide)
                (ite_ne_nil (append_ne_nil_left2 (by decide))
                  (ite_ne_nil (append_ne_nil_left2 (by decide))
                    (by decide))))))))

/-! ### Concrete example inputs used by the claim theorems -/



/-- The spec's image example. -/
def exImg : List Char := "<img src=\"my-cool_photo1.png\">".data

/-- Three headings h1, h4, h5: only the h4 is corrected. -/
def exHeads : List Char := "<h1>A</h1><h4>B</h4><h5>C</h5>".data

/-- The spec's heading example h1, h3. -/
def exH1H3 : List Char := "<h1>A</h1><h3>B</h3>".data

/-- The spec's duplicate-id example. -/
def exX : List Char := "<div id=\"x\"></div><div id=\"x\"></div>".data

/-- A duplicate id whose value collides with the attribute name. -/
def exD : List Char := "<a id=\"d\"></a><a id=\"d\"></a>".data

/-- A stand-in captioning collaborator (never consulted in heuristic mode). -/
def capNone : List Char → List Char := fun _ => "Image".data

/-- The single raw edit the engine accumulates on `exImg`. -/
def rawImgEdit : Edit := ⟨⟨0, 29⟩, ⟨0, 29⟩, " alt=\"My cool photo\"".data⟩

/-- A string on which the sanitizer is not idempotent: 59 `a`s, a space,
and two `b`s.  Its sanitized form is 59 `a`s plus the three-dot marker
(62 characters), which a second pass truncates and re-marks differently. -/
def exSan : List Char :=
  ("aaaaaaaaaaaaaaaaaaaaaaaaaaaaaaaaaaaaaaaaaaaaaaaaaaaaaaaaaaa bb").data

/-! ### Claim theorems -/

/-- C9: in "heuristic" mode the returned edits and warnings are a
deterministic function of the input text alone — two runs on the same
input that differ only in whether the ML captioning collaborator is
available, or in what it returns, produce identical output. -/
theorem claim9_heuristic_mode_ml_independent (code : List Char) (ml1 ml2 : Bool)
    (cap1 cap2 : List Char → List Char) :
    generate code "heuristic".data ml1 cap1 =
      generate code "heuristic".data ml2 cap2 := by
  have h : ((lowerL "heuristic".data) == "ml".data) = false := by decide
  unfold generate rawEditsOf rawOffEdits
  rw [rule_image_alt_mode_indep _ _ h ml1 ml2 cap1 cap2]

/-- C1: whenever a request succeeds, the edit list the engine returns is
`collectEdits raw` for its accumulated list `raw`, and this list contains
no two identical `(start, end, newText)` edits, is a permutation of the
first-seen deduplication of `raw` (which is a subsequence of `raw`
containing every accumulated edit, so the first-seen occurrence of each
duplicate is kept in first-seen order), is sorted in descending
`(start.line, start.column)` order, and is stable: the edits with any
given start key appear exactly in their first-seen order. -/
theorem claim1_dedup_sort (code0 mode0 : List Char) (ml : Bool)
    (cap : List Char → List Char) (raw : List Edit)
    (hr : rawEditsOf code0 mode0 ml cap = some raw) :
    (generate code0 mode0 ml cap).map GenResult.edits = some (collectEdits raw) ∧
    (collectEdits raw).Nodup ∧
    (collectEdits raw).Perm (dedupGo [] raw) ∧
    (dedupGo [] raw).Sublist raw ∧
    (∀ e, e ∈ raw → e ∈ dedupGo [] raw) ∧
    (collectEdits raw).Pairwise (fun a b => ¬ keyLt a b) ∧
    (∀ k, (collectEdits raw).filter (fun x => decide (sortKey x = k)) =
      (dedupGo [] raw).filter (fun x => decide (sortKey x = k))) := by
  refine ⟨?_, ?_, ?_, dedupGo_sublist [] raw, ?_, ?_, ?_⟩
  · unfold generate
    rw [hr]
    rfl
  · exact ((sortDesc_perm _).nodup_iff).mpr (dedupGo_nodup [] raw)
  · exact sortDesc_perm _
  · exact fun e he => mem_dedupGo [] raw e he (by simp)
  · exact sortDesc_sorted _
  · exact fun k => sortDesc_filter _ k

/-- C8: `offset_to_pos` is total for every text and every integer offset —
offsets outside `[0, length(text)]` are clamped to that interval — and it
is monotonic: `o1 < o2` gives lexicographically ordered `(line, column)`
positions. -/
theorem claim8_offset_to_pos_total_monotone (text : List Char) :
    (∀ off : Int, offset_to_pos text off =
        offset_to_pos text (max 0 (min off (text.length : Int)))) ∧
    (∀ o1 o2 : Int, o1 < o2 →
        posLe (offset_to_pos text o1) (offset_to_pos text o2)) := by
  constructor
  · intro off
    rw [offset_to_pos_eq_posOfPfx, offset_to_pos_eq_posOfPfx, clampOff_clamp]
  · intro o1 o2 h
    exact offset_to_pos_mono text (le_of_lt h)

/-- Witness for C8 on a concrete two-line text and offsets. -/
theorem claim8_offset_to_pos_witness :
    offset_to_pos "ab\ncd".data 99 =
        offset_to_pos "ab\ncd".data
          (max 0 (min 99 ("ab\ncd".data.length : Int))) ∧
      posLe (offset_to_pos "ab\ncd".data 1) (offset_to_pos "ab\ncd".data 4) :=
  ⟨(claim8_offset_to_pos_total_monotone "ab\ncd".data).1 99,
   (claim8_offset_to_pos_total_monotone "ab\ncd".data).2 1 4 (by decide)⟩

/-- C3 counterexample: the sanitizer is not idempotent.  On `exSan` (59
`a`s, a space, `bb`) the first pass truncates to 59 `a`s and appends the
dots marker, giving 62 characters; the second pass truncates again at 60
characters (keeping one dot) and appends a fresh marker, producing 59
`a`s followed by four dots. -/
theorem claim3_counterexample : sanitize60 (sanitize60 exSan) ≠ sanitize60 exSan := by
  decide

/-- C3 amended: the sanitizer (at its default `maxLen` of 60) is
idempotent on every string whose sanitized form does not have length 61
or 62; those two lengths, reachable only through truncation, are exactly
the cases the counterexample exploits. -/
theorem claim3_sanitize_idempotent_amended (s : List Char)
    (h61 : (sanitize60 s).length ≠ 61) (h62 : (sanitize60 s).length ≠ 62) :
    sanitize60 (sanitize60 s) = sanitize60 s := by
  by_cases hs : s.isEmpty = true
  · have h0 : sanitize60 s = [] := by
      unfold sanitize60 sanitize_text_for_attr
      rw [if_pos hs]
    rw [h0]
    rfl
  · have hs' : s.isEmpty = false := by simpa using hs
    have hN := normTxt_wsNormal s
    by_cases hlong : 60 < (normTxt s).length
    · rw [sanitize60_formula s hs', if_pos hlong] at h61 h62 ⊢
      have hwt : wsNormal (rstrip ((normTxt s).take 60) ++ ['.', '.', '.']) :=
        wsNormal_trunc hN
      have hplen : (rstrip ((normTxt s).take 60)).length ≤ 60 := by
        refine le_trans (rstrip_length_le _) ?_
        simp [List.length_take]
      have htne : (rstrip ((normTxt s).take 60) ++
          ['.', '.', '.']).isEmpty = false := by
        rcases rstrip ((normTxt s).take 60) with _ | _ <;> rfl
      have htlen : (rstrip ((normTxt s).take 60) ++ ['.', '.', '.']).length =
          (rstrip ((normTxt s).take 60)).length + 3 := by
        simp
      rw [sanitize60_formula _ htne, normTxt_id hwt]
      by_cases hshort2 : 60 <
          (rstrip ((normTxt s).take 60) ++ ['.', '.', '.']).length
      · rw [if_pos hshort2]
        have hp60 : (rstrip ((normTxt s).take 60)).length = 60 := by omega
        have htake : (rstrip ((normTxt s).take 60) ++
            ['.', '.', '.']).take 60 = rstrip ((normTxt s).take 60) :=
          List.take_left' hp60
        rw [htake, rstrip_idem]
      · rw [if_neg hshort2]
    · rw [sanitize60_formula s hs', if_neg hlong]
      by_cases hu0 : (normTxt s).isEmpty = true
      · have h0 : normTxt s = [] := by
          rcases hh : normTxt s with _ | _
          · rfl
          · rw [hh] at hu0; cases hu0
        rw [h0]
        rfl
      · rw [sanitize60_formula _ (by simpa using hu0), normTxt_id hN,
          if_neg hlong]

/-- Witness for the amended C3 at a short concrete string. -/
theorem claim3_sanitize_idempotent_witness :
    sanitize60 (sanitize60 "hello   world".data) =
      sanitize60 "hello   world".data :=
  claim3_sanitize_idempotent_amended "hello   world".data (by decide) (by decide)

/-- Witness for C1 at the image example: the engine returns the collected
singleton list, and the result has no duplicate edits. -/
theorem claim1_dedup_sort_witness :
    (generate exImg "heuristic".data false capNone).map GenResult.edits =
        some (collectEdits [rawImgEdit]) ∧
      (collectEdits [rawImgEdit]).Nodup :=
  ⟨(claim1_dedup_sort exImg "heuristic".data false capNone [rawImgEdit]
      (by decide)).1,
   (claim1_dedup_sort exImg "heuristic".data false capNone [rawImgEdit]
      (by decide)).2.1⟩



/-- C2: every edit emitted by any rule on any input text has both of its
character offsets within `[0, length(text)]`, its start offset at most
its end offset, and consequently a start position that is never
lexicographically greater than its end position. -/
theorem claim2_rule_edit_offsets_bounded (code mode : List Char)
    (mlA : Bool) (cap : List Char → List Char) (offs : List OffEdit)
    (h : rawOffEdits code mode mlA cap = some offs) :
    ∀ e ∈ offs, 0 ≤ e.o1 ∧ e.o1 ≤ e.o2 ∧ e.o2 ≤ (code.length : Int) ∧
      posLe (offset_to_pos code e.o1) (offset_to_pos code e.o2) := by
  intro e he
  unfold rawOffEdits at h
  cases hin : rule_input_label code with
  | none => rw [hin] at h; cases h
  | some inputEs =>
    rw [hin] at h
    simp only [] at h
    cases h
    simp only [List.mem_append] at he
    rcases he with ((((((h1 | h2) | h3) | h4) | h5) | h6) | h7) | h8
    · have hx := rule_image_alt_shape code mode mlA cap e h1
      exact ⟨hx.1.1, hx.1.2.1, hx.1.2.2, offset_to_pos_mono code hx.1.2.1⟩
    · have hx := rule_input_label_shape code hin e h2
      exact ⟨hx.1.1, hx.1.2.1, hx.1.2.2, offset_to_pos_mono code hx.1.2.1⟩
    · have hx := rule_link_name_shape code e h3
      exact ⟨hx.1.1, hx.1.2.1, hx.1.2.2, offset_to_pos_mono code hx.1.2.1⟩
    · have hx := rule_button_name_shape code e h4
      exact ⟨hx.1.1, hx.1.2.1, hx.1.2.2, offset_to_pos_mono code hx.1.2.1⟩
    · have hx := rule_duplicate_id_shape code e h5
      exact ⟨hx.1.1, hx.1.2.1, hx.1.2.2, offset_to_pos_mono code hx.1.2.1⟩
    · have hx := rule_heading_order_shape code e h6
      exact ⟨hx.1.1, hx.1.2.1, hx.1.2.2, offset_to_pos_mono code hx.1.2.1⟩
    · have hx := rule_no_positive_tabindex_shape code e h7
      exact ⟨hx.1.1, hx.1.2.1, hx.1.2.2, offset_to_pos_mono code hx.1.2.1⟩
    · have hx := rule_html_lang_shape code e h8
      exact ⟨hx.1.1, hx.1.2.1, hx.1.2.2, offset_to_pos_mono code hx.1.2.1⟩

/-- Witness for C2: the single edit accumulated on the `<img>` example
lies within bounds and has equal, hence ordered, endpoints. -/
theorem claim2_rule_edit_offsets_witness :
    (0 : Int) ≤ 29 ∧ (29 : Int) ≤ 29 ∧ (29 : Int) ≤ (exImg.length : Int) ∧
      posLe (offset_to_pos exImg 29) (offset_to_pos exImg 29) :=
  claim2_rule_edit_offsets_bounded exImg "heuristic".data false capNone
    [⟨29, 29, " alt=\"My cool photo\"".data⟩] (by decide)
    ⟨29, 29, " alt=\"My cool photo\"".data⟩ (by decide)

/-- C10: every edit produced by every rule carries a non-empty
replacement text, so the engine only inserts or replaces and never
proposes a pure deletion. -/
theorem claim10_inserted_text_nonempty (code mode : List Char)
    (mlA : Bool) (cap : List Char → List Char) (offs : List OffEdit)
    (h : rawOffEdits code mode mlA cap = some offs) :
    ∀ e ∈ offs, e.newText ≠ [] := by
  intro e he
  unfold rawOffEdits at h
  cases hin : rule_input_label code with
  | none => rw [hin] at h; cases h
  | some inputEs =>
    rw [hin] at h
    simp only [] at h
    cases h
    simp only [List.mem_append] at he
    rcases he with ((((((h1 | h2) | h3) | h4) | h5) | h6) | h7) | h8
    · exact (rule_image_alt_shape code mode mlA cap e h1).2
    · exact (rule_input_label_shape code hin e h2).2
    · exact (rule_link_name_shape code e h3).2
    · exact (rule_button_name_shape code e h4).2
    · exact (rule_duplicate_id_shape code e h5).2
    · exact (rule_heading_order_shape code e h6).2
    · exact (rule_no_positive_tabindex_shape code e h7).2
    · exact (rule_html_lang_shape code e h8).2

/-- Witness for C10: the replacement text of the edit accumulated on the
`<img>` example is non-empty. -/
theorem claim10_inserted_text_witness :
    (" alt=\"My cool photo\"".data : List Char) ≠ [] :=
  claim10_inserted_text_nonempty exImg "heuristic".data false capNone
    [⟨29, 29, " alt=\"My cool photo\"".data⟩] (by decide)
    ⟨29, 29, " alt=\"My cool photo\"".data⟩ (by decide)


/-- C4 counterexample: on h1, h4, h5 the rule corrects only the h4 (two
edits rewriting it to h2, one warning); no edit rewrites anything to h3,
because the stored `last` after the corrected heading is its original
level 4, and 5 does not exceed 4 + 1. -/
theorem claim4_counterexample :
    rule_heading_order exHeads =
      ([⟨11, 13, "h2".data⟩, ⟨17, 19, "h2".data⟩],
       ["Changed heading level h4 -> h2 at offset 10 to fix order.".data]) ∧
    "h3".data ∉ (rule_heading_order exHeads).1.map OffEdit.newText := by
  decide

/-- C4 amended: the heading walk always passes the heading's original
level — corrected or not — as the new `last` to the rest of the walk
(each violation contributing two edits and one warning on the way), and
on the spec's h1, h3 example it produces exactly the two h3→h2 edits and
one warning. -/
theorem claim4_heading_order_amended (lv : Nat)
    (m : Nat × Nat × (Nat × List Char))
    (ms : List (Nat × Nat × (Nat × List Char))) :
    ((headingWalk (some lv) (m :: ms)).1.drop
        (if lv + 1 < m.2.2.1 then 2 else 0) =
      (headingWalk (some m.2.2.1) ms).1 ∧
     (headingWalk (some lv) (m :: ms)).2.drop
        (if lv + 1 < m.2.2.1 then 1 else 0) =
      (headingWalk (some m.2.2.1) ms).2) ∧
    rule_heading_order exH1H3 =
      ([⟨11, 13, "h2".data⟩, ⟨17, 19, "h2".data⟩],
       ["Changed heading level h3 -> h2 at offset 10 to fix order.".data]) := by
  constructor
  · obtain ⟨s, n, level, block⟩ := m
    simp only []
    simp only [headingWalk]
    by_cases hc : lv + 1 < level
    · rw [if_pos hc, if_pos hc, if_pos hc]
      exact ⟨rfl, rfl⟩
    · rw [if_neg hc, if_neg hc, if_neg hc]
      exact ⟨rfl, rfl⟩
  · decide

/-- Witness for the C4 amended walk at a concrete violating heading. -/
theorem claim4_heading_order_witness :
    ((headingWalk (some 1) [(10, 10, 4, "<h4>B</h4>".data)]).1.drop 2 =
        (headingWalk (some 4) []).1 ∧
      (headingWalk (some 1) [(10, 10, 4, "<h4>B</h4>".data)]).2.drop 1 =
        (headingWalk (some 4) []).2) ∧
    rule_heading_order exH1H3 =
      ([⟨11, 13, "h2".data⟩, ⟨17, 19, "h2".data⟩],
       ["Changed heading level h3 -> h2 at offset 10 to fix order.".data]) :=
  claim4_heading_order_amended 1 (10, 10, 4, "<h4>B</h4>".data) []

/-- C5 counterexample: the guessed alt text for `my-cool_photo1.png` is
"My cool photo", not "Cool photo": the digit 1 keeps the `photo` token
from matching a trailing word boundary, and "my" is never stripped. -/
theorem claim5_counterexample :
    guess_alt_from_src "my-cool_photo1.png".data = "My cool photo".data ∧
    guess_alt_from_src "my-cool_photo1.png".data ≠ "Cool photo".data := by
  decide

/-- C5 amended: the `<img src="my-cool_photo1.png">` input yields exactly
one ImageAlt edit, inserting ` alt="My cool photo"` immediately before
the closing bracket (offset 29), whatever the ML collaborator does. -/
theorem claim5_image_alt_example_amended (mlA : Bool)
    (cap : List Char → List Char) :
    rule_image_alt exImg "heuristic".data mlA cap =
      [⟨29, 29, " alt=\"My cool photo\"".data⟩] ∧
    guess_alt_from_src "my-cool_photo1.png".data = "My cool photo".data := by
  constructor
  · rw [rule_image_alt_mode_indep exImg "heuristic".data (by decide) mlA false
      cap capNone]
    decide
  · decide

/-- Witness for C5 at concrete collaborator arguments. -/
theorem claim5_image_alt_witness :
    rule_image_alt exImg "heuristic".data true capNone =
      [⟨29, 29, " alt=\"My cool photo\"".data⟩] ∧
    guess_alt_from_src "my-cool_photo1.png".data = "My cool photo".data :=
  claim5_image_alt_example_amended true capNone

/-- C6 counterexample: on two `<a id="d">` tags the single edit covers
offsets 18-19, which is the `d` of the second attribute name `id`
(characters 17-18 spell "id"), not the value span — the actual value `d`
sits at offset 21.  The edit is found by a case-insensitive find of the
value inside the whole match text. -/
theorem claim6_counterexample :
    rule_duplicate_id exD = [⟨18, 19, "d-1".data⟩] ∧
    (exD.drop 17).take 2 = "id".data ∧
    (exD.drop 21).take 1 = "d".data := by
  decide

/-- C6 amended: the spec's `id="x"` example is right — exactly one edit
renaming the second occurrence's value span to `x-1` — and in general
every duplicate-id edit comes from a group with at least two occurrences,
rewrites a span of the value's length starting at the recorded
find-based offset, and its replacement starts with `value-`; but the
span is the find result inside the whole match, not necessarily the
value's own span. -/
theorem claim6_duplicate_id_amended :
    rule_duplicate_id exX = [⟨27, 28, "x-1".data⟩] ∧
    (∀ (code : List Char) (e : OffEdit), e ∈ rule_duplicate_id code →
      ∃ g, g ∈ idGroups code ∧ 2 ≤ g.2.length ∧ ∃ i, i ∈ g.2 ∧
        e.o1 = i ∧ e.o2 = i + (g.1.length : Int) ∧
        startsWithCh (g.1 ++ ['-']) e.newText = true) := by
  constructor
  · decide
  · intro code e he
    unfold rule_duplicate_id at he
    rcases List.mem_bind.mp he with ⟨g, hg, hge⟩
    obtain ⟨h2, i, hi, ho1, ho2, -, hsw⟩ := dupEditsFor_shape hge
    exact ⟨g, hg, h2, i, hi, ho1, ho2, hsw⟩

/-- Witness for C6 on the spec's own example edit. -/
theorem claim6_duplicate_id_witness :
    ∃ g, g ∈ idGroups exX ∧ 2 ≤ g.2.length ∧ ∃ i, i ∈ g.2 ∧
      (27 : Int) = i ∧ (28 : Int) = i + (g.1.length : Int) ∧
      startsWithCh (g.1 ++ ['-']) "x-1".data = true :=
  claim6_duplicate_id_amended.2 exX ⟨27, 28, "x-1".data⟩ (by decide)

/-- C7 counterexample: the input-label guesser is neither exception-free
nor non-empty.  A whitespace-only class attribute makes Python's
`class_val.split()[0]` raise an uncaught IndexError (modelled `none`),
and a whitespace-only name attribute produces the empty label. -/
theorem claim7_counterexample :
    guess_input_label_from_attrs "input".data "class=\" \"".data = none ∧
    guess_input_label_from_attrs "input".data "name=\" \"".data = some [] := by
  decide

/-- C7 amended: the other three guessers are total, deterministic (pure
functions) and always return a non-empty label, for every input
including malformed attribute fragments. -/
theorem claim7_guessers_amended :
    (∀ src, guess_alt_from_src src ≠ []) ∧
    (∀ attrs inner, guess_button_label_from_attrs attrs inner ≠ []) ∧
    (∀ href inner, guess_link_label_from_href href inner ≠ []) :=
  ⟨guess_alt_ne_nil, guess_button_ne_nil, guess_link_ne_nil⟩

/-- Witness for C7 on empty fragments. -/
theorem claim7_guessers_witness :
    guess_alt_from_src [] ≠ [] ∧
    guess_button_label_from_attrs [] [] ≠ [] ∧
    guess_link_label_from_href [] [] ≠ [] :=
  ⟨claim7_guessers_amended.1 [], claim7_guessers_amended.2.1 [] [],
   claim7_guessers_amended.2.2 [] []⟩

end A11y
